import Mathlib

/-!
Shallow embedding of the placeholder lifecycle and text-splice engine of the
"Appinn Forum Upload Enhancer" userscript, together with theorems settling the
specification claims.

Strings are modelled as `List Char`, one element per code point; all characters
appearing in the script's tokens are in the basic multilingual plane, so code
point indices agree with the JavaScript UTF-16 offsets on the texts considered.
Editor text, cursor and scroll state mirror the snapshot the source takes with
`DOMUtils.saveEditorState` (`{selectionStart, selectionEnd, scrollTop, value}`).
Selection offsets are modelled as integers; `String.prototype.substring`'s
clamping behaviour coincides with `Int.toNat` followed by `List.take`/`drop`.
-/

namespace UploadEnhancer

/-- Configured maximum file size in bytes (`CONFIG.MAX_FILE_SIZE`, 20 MiB). -/
def MAX_FILE_SIZE : Nat := 20 * 1024 * 1024

/-- Leading wrap placed before inserted content (`CONFIG.CONTENT_FORMAT.BEFORE`). -/
def CONTENT_BEFORE : List Char := '\n' :: []

/-- Trailing wrap placed after inserted content (`CONFIG.CONTENT_FORMAT.AFTER`). -/
def CONTENT_AFTER : List Char := '\n' :: '\n' :: []

/-- Error tag `CONFIG.ERROR_TYPES.NETWORK`. -/
def ERROR_NETWORK : List Char := "network".data

/-- Error tag `CONFIG.ERROR_TYPES.SERVER`. -/
def ERROR_SERVER : List Char := "server".data

/-- Error tag `CONFIG.ERROR_TYPES.PERMISSION`. -/
def ERROR_PERMISSION : List Char := "permission".data

/-- Error tag `CONFIG.ERROR_TYPES.FORMAT`. -/
def ERROR_FORMAT : List Char := "format".data

/-- Error tag `CONFIG.ERROR_TYPES.FILETYPE`. -/
def ERROR_FILETYPE : List Char := "filetype".data

/-- Error tag `CONFIG.ERROR_TYPES.FILESIZE`. -/
def ERROR_FILESIZE : List Char := "filesize".data

/-- Error tag `CONFIG.ERROR_TYPES.UNKNOWN`. -/
def ERROR_UNKNOWN : List Char := "unknown".data

/-- A `File` object as far as the script reads it: `name`, `type` (MIME string)
and `size` in bytes. -/
structure JsFile where
  name : List Char
  type : List Char
  size : Nat
deriving DecidableEq

/-- Keys of `CONFIG.SUPPORTED_MIME_TYPES`, in declaration order. -/
inductive FileKind where
  | image
  | video
  | audio
  | pdf
deriving DecidableEq

/-- The `test` predicate of each entry of `CONFIG.SUPPORTED_MIME_TYPES`. -/
def mimeTypeTest : FileKind → List Char → Bool
  | FileKind.image, t => "image/".data.isPrefixOf t
  | FileKind.video, t => "video/".data.isPrefixOf t
  | FileKind.audio, t => "audio/".data.isPrefixOf t
  | FileKind.pdf, t => t == "application/pdf".data

/-- Declaration order of `CONFIG.SUPPORTED_MIME_TYPES` (`Object.entries` order). -/
def SUPPORTED_MIME_ORDER : List FileKind :=
  [FileKind.image, FileKind.video, FileKind.audio, FileKind.pdf]

/-- `FileUtils.getFileType`: first supported category whose `test` accepts the
file's MIME type, or `none`. -/
def getFileType (file : JsFile) : Option FileKind :=
  SUPPORTED_MIME_ORDER.find? (fun k => mimeTypeTest k file.type)

/-- Result shape of `FileUtils.validateFile`: `{valid, error}`. -/
structure ValidationResult where
  valid : Bool
  error : Option (List Char)
deriving DecidableEq

/-- `FileUtils.validateFile`: reject with `filetype` when no category matches,
then with `filesize` when the size exceeds `CONFIG.MAX_FILE_SIZE`, else valid. -/
def validateFile (file : JsFile) : ValidationResult :=
  match getFileType file with
  | none => ⟨false, some ERROR_FILETYPE⟩
  | some _ =>
    if file.size > MAX_FILE_SIZE then ⟨false, some ERROR_FILESIZE⟩
    else ⟨true, none⟩

/-- Body of `MarkdownFormatter.getPlaceholderText` as a function of the already
computed file type: `${pfx}[上传中...${uploadId}${sfx}]`. -/
def placeholderTextFor (fileType : Option FileKind) (uploadId : List Char) : List Char :=
  let pfx : List Char :=
    if fileType = some FileKind.image ∨ fileType = some FileKind.video ∨
        fileType = some FileKind.audio then "!".data else []
  let sfx : List Char :=
    if fileType = some FileKind.video then "|video".data
    else if fileType = some FileKind.audio then "|audio".data
    else if fileType = some FileKind.pdf then "|attachment".data
    else []
  pfx ++ "[上传中...".data ++ uploadId ++ sfx ++ "]".data

/-- `MarkdownFormatter.getPlaceholderText`: computes the file type, then builds
the placeholder token. -/
def getPlaceholderText (file : JsFile) (uploadId : List Char) : List Char :=
  placeholderTextFor (getFileType file) uploadId

/-- The `errorMessages` table of `MarkdownFormatter.getFailureText`. -/
def errorMessages : List (List Char × List Char) :=
  [(ERROR_NETWORK, "网络错误".data),
   (ERROR_SERVER, "服务器错误".data),
   (ERROR_PERMISSION, "权限错误".data),
   (ERROR_FORMAT, "格式错误".data),
   (ERROR_FILETYPE, "类型不支持".data),
   (ERROR_FILESIZE, "文件过大".data),
   (ERROR_UNKNOWN, "未知错误".data)]

/-- The own properties of `Object.prototype`, inherited by the
`errorMessages` object literal, keyed by property name and mapped to the
string the property value renders to inside a template literal (the
built-in functions print in the NativeFunction form; the accessor
`__proto__` yields `Object.prototype` itself, which prints as
`[object Object]`).  All of these values are truthy, so
`errorMessages[k] || default` yields them for these keys `k`. -/
def objectPrototypeProps : List (List Char × List Char) :=
  [("constructor".data, "function Object() \x7b [native code] \x7d".data),
   ("hasOwnProperty".data, "function hasOwnProperty() \x7b [native code] \x7d".data),
   ("isPrototypeOf".data, "function isPrototypeOf() \x7b [native code] \x7d".data),
   ("propertyIsEnumerable".data,
     "function propertyIsEnumerable() \x7b [native code] \x7d".data),
   ("toLocaleString".data, "function toLocaleString() \x7b [native code] \x7d".data),
   ("toString".data, "function toString() \x7b [native code] \x7d".data),
   ("valueOf".data, "function valueOf() \x7b [native code] \x7d".data),
   ("__defineGetter__".data, "function __defineGetter__() \x7b [native code] \x7d".data),
   ("__defineSetter__".data, "function __defineSetter__() \x7b [native code] \x7d".data),
   ("__lookupGetter__".data, "function __lookupGetter__() \x7b [native code] \x7d".data),
   ("__lookupSetter__".data, "function __lookupSetter__() \x7b [native code] \x7d".data),
   ("__proto__".data, "[object Object]".data)]

/-- The expression `errorMessages[errorType] || '未知错误'` of
`MarkdownFormatter.getFailureText`.  Property access on the object literal
walks the prototype chain: an own property of the table wins; otherwise a
property inherited from `Object.prototype` is returned (all truthy, so the
`||` does not replace them); only when the key is absent from both does the
lookup give `undefined` and the default `'未知错误'` apply. -/
def errorMessageFor (errorType : List Char) : List Char :=
  match errorMessages.find? (fun p => p.1 == errorType) with
  | some p => p.2
  | none =>
    match objectPrototypeProps.find? (fun p => p.1 == errorType) with
    | some p => p.2
    | none => "未知错误".data

/-- `MarkdownFormatter.getFailureText`: renders `[上传失败(${errorMessage})-${uploadId}]`. -/
def getFailureText (uploadId errorType : List Char) : List Char :=
  "[上传失败(".data ++ errorMessageFor errorType ++ ")-".data ++ uploadId ++ "]".data

/-- `MarkdownFormatter.formatContent`: wraps content in the configured newlines. -/
def formatContent (content : List Char) : List Char :=
  CONTENT_BEFORE ++ content ++ CONTENT_AFTER

/-- Snapshot of the editor, as read and written by the script
(`DOMUtils.saveEditorState`). -/
structure EditorState where
  value : List Char
  selectionStart : Int
  selectionEnd : Int
  scrollTop : Int
deriving DecidableEq

/-- `PlaceholderManager.insertPlaceholder`: splices the wrapped placeholder at
the saved `selectionStart`, puts the cursor right after the inserted span and
restores the scroll offset. -/
def insertPlaceholder (editorState : EditorState) (placeholderText : List Char) :
    EditorState :=
  let position := editorState.selectionStart
  let currentText := editorState.value
  let completeText := formatContent placeholderText
  let newValue :=
    currentText.take position.toNat ++ completeText ++ currentText.drop position.toNat
  let newCursorPosition := position + completeText.length
  { value := newValue
    selectionStart := newCursorPosition
    selectionEnd := newCursorPosition
    scrollTop := editorState.scrollTop }

/-- Line terminators not matched by an (un-flagged) JavaScript regex `.`. -/
def isLineTerminator (c : Char) : Bool :=
  c == '\n' || c == '\r' || c == '\u2028' || c == '\u2029'

/-- Lowercase ASCII letters, the character class `[a-z]`. -/
def isLowerAZ (c : Char) : Bool :=
  'a' ≤ c && c ≤ 'z'

/-- Strips `p` from the front of `cs`, returning the remainder; models matching
a literal fragment of the search pattern. -/
def stripLit : List Char → List Char → Option (List Char)
  | [], cs => some cs
  | _ :: _, [] => none
  | a :: p, c :: cs => if a = c then stripLit p cs else none

/-- Splits the longest leading run of `[a-z]` characters off `cs`, returning
its length and the remainder (the backtracking-free behaviour of a greedy
`[a-z]+` whose follower `]` is not a lowercase letter). -/
def takeLowerRun : List Char → Nat × List Char
  | [] => (0, [])
  | c :: cs =>
    if isLowerAZ c then
      let r := takeLowerRun cs
      (r.1 + 1, r.2)
    else (0, c :: cs)

/-- Matches the tail `(\|[a-z]+)?\]` of the placeholder pattern at the front of
`cs`, returning the number of characters consumed: either a direct `]`, or the
greedy group `\|[a-z]+` followed by `]` (backtracking inside the group cannot
help, because no shorter run is followed by `]`). -/
def matchSuffixClose : List Char → Option Nat
  | [] => none
  | c :: cs =>
    if c = ']' then some 1
    else if c = '|' then
      let r := takeLowerRun cs
      if r.1 > 0 then
        match r.2 with
        | c' :: _ => if c' = ']' then some (r.1 + 2) else none
        | [] => none
      else none
    else none

/-- The literal fragment `\[上传中` of the search pattern. -/
def headLit : List Char := '[' :: '上' :: '传' :: '中' :: []

/-- Matches `\[上传中...${uploadId}(\|[a-z]+)?\]` at the front of `cs` (the
three dots of the pattern are `.` wildcards), returning the number of
characters consumed. -/
def matchCore (uploadId cs : List Char) : Option Nat :=
  (stripLit headLit cs).bind (fun cs1 =>
    match cs1 with
    | w1 :: w2 :: w3 :: cs2 =>
      if isLineTerminator w1 || isLineTerminator w2 || isLineTerminator w3 then none
      else
        (stripLit uploadId cs2).bind (fun cs3 =>
          (matchSuffixClose cs3).map (fun k => 4 + 3 + uploadId.length + k))
    | _ => none)

/-- Matches `(!)?\[上传中...${uploadId}(\|[a-z]+)?\]` at the front of `cs`.
When the first character is `!` the optional group must take it, because `\[`
cannot match `!`; otherwise the group is empty. -/
def matchAt (uploadId cs : List Char) : Option Nat :=
  match cs with
  | [] => none
  | c :: rest =>
    if c = '!' then (matchCore uploadId rest).map (· + 1)
    else matchCore uploadId (c :: rest)

/-- Position information returned by `PlaceholderManager.findPlaceholder`
(`{start, end, text}`; the source's `end` field is called `stop` here because
`end` is a Lean keyword). -/
structure Span where
  start : Nat
  stop : Nat
  text : List Char
deriving DecidableEq

/-- Scans for the leftmost pattern match, the behaviour of `RegExp.exec`;
`i` is the absolute offset of `cs` inside the whole text. -/
def findFrom (uploadId cs : List Char) (i : Nat) : Option (Nat × Nat) :=
  match cs with
  | [] =>
    match matchAt uploadId [] with
    | some len => some (i, len)
    | none => none
  | c :: rest =>
    match matchAt uploadId (c :: rest) with
    | some len => some (i, len)
    | none => findFrom uploadId rest (i + 1)

/-- `PlaceholderManager.findPlaceholder`: leftmost match of
`(!)?\[上传中...${uploadId}(\|[a-z]+)?\]` in `text`, as a `Span`, or `none`. -/
def findPlaceholder (text uploadId : List Char) : Option Span :=
  match findFrom uploadId text 0 with
  | some (i, len) => some ⟨i, i + len, (text.drop i).take len⟩
  | none => none

/-- `PlaceholderManager._adjustCursorPosition`: the three disjoint cursor
rules, applied to the saved selection; returns the new
`(selectionStart, selectionEnd)`. -/
def adjustCursorPosition (currentState : EditorState) (placeholder : Span)
    (lengthDiff : Int) : Int × Int :=
  let selectionStart := currentState.selectionStart
  let selectionEnd := currentState.selectionEnd
  if selectionStart < (placeholder.start : Int) then
    (selectionStart, selectionEnd)
  else if (placeholder.start : Int) ≤ selectionStart ∧
      selectionStart ≤ (placeholder.stop : Int) then
    let s := (placeholder.start : Int) +
      ((placeholder.stop : Int) - (placeholder.start : Int)) + lengthDiff
    (s, s)
  else if selectionStart > (placeholder.stop : Int) then
    (selectionStart + lengthDiff, selectionEnd + lengthDiff)
  else
    (selectionStart, selectionEnd)

/-- `PlaceholderManager._appendToEditor`: appends the wrapped content at the
end, first adding a separating newline when the buffer is non-empty and does
not already end in one, and moves both selection ends to the new end. -/
def appendToEditor (editor : EditorState) (content : List Char) : EditorState :=
  let currentText := editor.value
  let withSep :=
    if currentText.length > 0 ∧ currentText.getLast? ≠ some '\n' then
      currentText ++ '\n' :: []
    else currentText
  let newText := withSep ++ formatContent content
  { value := newText
    selectionStart := (newText.length : Int)
    selectionEnd := (newText.length : Int)
    scrollTop := editor.scrollTop }

/-- `PlaceholderManager.replacePlaceholder`: re-reads the current state,
locates the placeholder and splices the replacement over the matched span,
adjusting the cursor and restoring the scroll offset; falls back to
`_appendToEditor` when the placeholder is absent.  The boolean is the value
passed to the completion callback (`true` on in-place replacement). -/
def replacePlaceholder (editor : EditorState) (uploadId markdownLink : List Char) :
    EditorState × Bool :=
  let currentState := editor
  let currentText := currentState.value
  match findPlaceholder currentText uploadId with
  | none => (appendToEditor editor markdownLink, false)
  | some placeholder =>
    let originalLength := placeholder.stop - placeholder.start
    let newLength := markdownLink.length
    let lengthDiff : Int := (newLength : Int) - (originalLength : Int)
    let newText :=
      currentText.take placeholder.start ++ markdownLink ++
        currentText.drop placeholder.stop
    let sel := adjustCursorPosition currentState placeholder lengthDiff
    ({ value := newText
       selectionStart := sel.1
       selectionEnd := sel.2
       scrollTop := currentState.scrollTop }, true)

/-- The synchronous front of `UploadService.processFiles` for one file: a file
failing validation only triggers `FileUtils.showFileError` (an alert) and never
touches the editor; a valid file gets its placeholder inserted at the saved
cursor before its transfer starts. -/
def processFile (file : JsFile) (editor : EditorState) (uploadId : List Char) :
    EditorState :=
  let validation := validateFile file
  if validation.valid then
    insertPlaceholder editor (getPlaceholderText file uploadId)
  else editor

/-- ASCII lowering, the effect of `String.prototype.toLowerCase` on the ASCII
and CJK alphabets the classifier's phrases are drawn from. -/
def toLowerStr (s : List Char) : List Char :=
  s.map Char.toLower

/-- Substring test, `String.prototype.includes`. -/
def containsSub (hay needle : List Char) : Bool :=
  needle.isPrefixOf hay ||
    match hay with
    | [] => false
    | _ :: rest => containsSub rest needle

/-- `UploadService._categorizeError`: case-insensitive substring cascade over
the error's textual description, in source order (network, then permission,
then server, then format, else unknown). -/
def categorizeError (error : List Char) : List Char :=
  let errorStr := toLowerStr error
  if containsSub errorStr "network".data || containsSub errorStr "failed to fetch".data ||
      containsSub errorStr "网络请求失败".data then ERROR_NETWORK
  else if containsSub errorStr "401".data || containsSub errorStr "403".data ||
      containsSub errorStr "permission".data then ERROR_PERMISSION
  else if containsSub errorStr "500".data || containsSub errorStr "503".data ||
      containsSub errorStr "服务器".data then ERROR_SERVER
  else if containsSub errorStr "解析".data || containsSub errorStr "parse".data ||
      containsSub errorStr "format".data then ERROR_FORMAT
  else ERROR_UNKNOWN

/-- Decimal digit character for a value below ten (used to spell out the
decimal notation `${n}` of template literals). -/
def digitChar : Nat → Char
  | 0 => '0'
  | 1 => '1'
  | 2 => '2'
  | 3 => '3'
  | 4 => '4'
  | 5 => '5'
  | 6 => '6'
  | 7 => '7'
  | 8 => '8'
  | 9 => '9'
  | _ => '*'

/-- Fuel-driven decimal printer; the fuel only serves structural recursion and
is irrelevant once at least `n + 1`. -/
def natReprAux : Nat → Nat → List Char
  | 0, _ => []
  | fuel + 1, n =>
    if n < 10 then digitChar n :: []
    else natReprAux fuel (n / 10) ++ digitChar (n % 10) :: []

/-- Decimal notation of a natural number, most significant digit first: the
string interpolation `${n}` of a JavaScript number holding a natural. -/
def natRepr (n : Nat) : List Char := natReprAux (n + 1) n

/-- Numeric value of a decimal digit string (left fold, base ten). -/
def parseDigits (cs : List Char) : Nat :=
  cs.foldl (fun acc c => acc * 10 + (c.toNat - 48)) 0

/-- One call of `AppState.generateUploadId`: given the current clock value and
counter, returns the id `${Date.now()}-${++this.uploadCounter}` together with
the incremented counter. -/
def generateUploadId (now uploadCounter : Nat) : List Char × Nat :=
  (natRepr now ++ '-' :: natRepr (uploadCounter + 1), uploadCounter + 1)

/-- The ids returned by a sequence of `generateUploadId` calls observed at the
given clock values, threading the counter. -/
def generateIds : List Nat → Nat → List (List Char)
  | [], _ => []
  | t :: ts, uploadCounter =>
    (generateUploadId t uploadCounter).1 ::
      generateIds ts (generateUploadId t uploadCounter).2

/-- Lexicographic comparison of strings by code unit, JavaScript's `<` on
strings. -/
def strLt : List Char → List Char → Bool
  | _, [] => false
  | [], _ :: _ => true
  | a :: as, b :: bs =>
    if a.toNat < b.toNat then true
    else if b.toNat < a.toNat then false
    else strLt as bs

/-- The counter component of a generated id: the digits after the first `-`. -/
def counterPart (id : List Char) : Nat :=
  parseDigits ((id.dropWhile (fun c => c != '-')).drop 1)

/-- A decimal digit or the `-` separator: the only characters occurring in
generated upload ids. -/
def isIdChar (c : Char) : Prop :=
  (48 ≤ c.toNat ∧ c.toNat ≤ 57) ∨ c.toNat = 45

instance (c : Char) : Decidable (isIdChar c) := by
  unfold isIdChar
  infer_instance

/-- The character shape of generated upload ids: non-empty strings of decimal
digits and `-` (the shape `${Date.now()}-${counter}` produces; such ids also
contain no regex metacharacters, so interpolating them into the search pattern
keeps them literal). -/
def IdOk (uploadId : List Char) : Prop :=
  uploadId ≠ [] ∧ ∀ c ∈ uploadId, isIdChar c

/-- Positional character access, used to reason about overlapping pattern
occurrences. -/
def charAt : List Char → Nat → Option Char
  | [], _ => none
  | c :: _, 0 => some c
  | _ :: cs, n + 1 => charAt cs n

/-- Constraint on the three wildcard characters matched by the pattern's
dots: any three characters that are not line terminators. -/
def WOk (w : List Char) : Prop :=
  w.length = 3 ∧ ∀ c ∈ w, isLineTerminator c = false

/-- Constraint on the optional suffix group `(\|[a-z]+)?`: empty, or `|`
followed by one or more lowercase ASCII letters. -/
def SfxOk (sfx : List Char) : Prop :=
  sfx = [] ∨ ∃ ls, sfx = '|' :: ls ∧ ls ≠ [] ∧ ∀ c ∈ ls, isLowerAZ c = true

/-- The text of one occurrence of the search pattern: optional `!`, the
literal `[上传中`, three wildcard characters, the id, the optional suffix and
the closing `]`. -/
def formWord (bang : Bool) (w uploadId sfx : List Char) : List Char :=
  (if bang then '!' :: [] else []) ++ headLit ++ w ++ uploadId ++ sfx ++ ']' :: []

/-- Specification-side description of a pattern occurrence at the head of
`cs`: `cs` starts with a form word for the id and `len` is that word's
length.  This is the wording of the claims about `findPlaceholder`; the
equivalence with the executable matcher is proved, not assumed. -/
def SpecMatchAt (uploadId cs : List Char) (len : Nat) : Prop :=
  ∃ bang w sfx rest, WOk w ∧ SfxOk sfx ∧
    cs = formWord bang w uploadId sfx ++ rest ∧
    len = (formWord bang w uploadId sfx).length

/-! ### Claim C6: shape of the generated placeholder -/

/-- C6: for every file classification and upload id, the generated placeholder
is exactly prefix ++ `[上传中...` ++ id ++ suffix ++ `]`, where the prefix is
`!` for the image, video and audio classifications and empty otherwise, and the
suffix is `|video` for video, `|audio` for audio, `|attachment` for pdf and
empty otherwise; consequently the placeholder contains the id verbatim as a
substring. -/
theorem placeholderTextFor_shape (fileType : Option FileKind) (uploadId : List Char) :
    placeholderTextFor fileType uploadId =
      (if fileType = some FileKind.image ∨ fileType = some FileKind.video ∨
          fileType = some FileKind.audio then '!' :: [] else []) ++
        "[上传中...".data ++ uploadId ++
        (if fileType = some FileKind.video then "|video".data
         else if fileType = some FileKind.audio then "|audio".data
         else if fileType = some FileKind.pdf then "|attachment".data
         else []) ++ "]".data
    ∧ ∃ pre post, placeholderTextFor fileType uploadId = pre ++ uploadId ++ post := by
  constructor
  · rfl
  · refine ⟨(if fileType = some FileKind.image ∨ fileType = some FileKind.video ∨
        fileType = some FileKind.audio then '!' :: [] else []) ++ "[上传中...".data,
      (if fileType = some FileKind.video then "|video".data
       else if fileType = some FileKind.audio then "|audio".data
       else if fileType = some FileKind.pdf then "|attachment".data
       else []) ++ "]".data, ?_⟩
    simp [placeholderTextFor, List.append_assoc]

/-! ### Claim C8: totality and shape of the failure marker -/

/-- C8 (amended): for every upload id and every error kind the failure
renderer is total and yields `[上传失败(${errorMessage})-${id}]`, a non-empty
string containing the id; a kind mapped neither by the taxonomy table nor by
a property inherited from `Object.prototype` gets the generic unknown-error
message, while an inherited key such as `toString` renders the inherited
value instead. -/
theorem getFailureText_total (uploadId errorType : List Char) :
    getFailureText uploadId errorType =
      "[上传失败(".data ++ errorMessageFor errorType ++ ")-".data ++ uploadId ++ "]".data
    ∧ (errorType ∉ [ERROR_NETWORK, ERROR_SERVER, ERROR_PERMISSION, ERROR_FORMAT,
        ERROR_FILETYPE, ERROR_FILESIZE, ERROR_UNKNOWN] →
       (∀ p ∈ objectPrototypeProps, p.1 ≠ errorType) →
        errorMessageFor errorType = "未知错误".data)
    ∧ (∀ p ∈ objectPrototypeProps, errorMessageFor p.1 = p.2)
    ∧ getFailureText uploadId errorType ≠ []
    ∧ ∃ pre post, getFailureText uploadId errorType = pre ++ uploadId ++ post := by
  refine ⟨rfl, ?_, by decide, by simp [getFailureText], ?_⟩
  · intro h hp
    have e1 : errorMessages.find? (fun p => p.1 == errorType) = none := by
      rw [List.find?_eq_none]
      intro p hq
      simp only [errorMessages, List.mem_cons, List.not_mem_nil, or_false] at hq
      simp only [beq_iff_eq]
      intro he
      apply h
      subst he
      rcases hq with hq | hq | hq | hq | hq | hq | hq <;> subst hq <;> simp
    have e2 : objectPrototypeProps.find? (fun p => p.1 == errorType) = none := by
      rw [List.find?_eq_none]
      intro p hq
      simp only [beq_iff_eq]
      exact hp p hq
    simp [errorMessageFor, e1, e2]
  · exact ⟨"[上传失败(".data ++ errorMessageFor errorType ++ ")-".data, "]".data, by
      simp [getFailureText, List.append_assoc]⟩

/-- Witness for C8 at a concrete kind mapped neither by the taxonomy table
nor by the prototype chain. -/
theorem getFailureText_total_witness :
    ("weird".data ∉ [ERROR_NETWORK, ERROR_SERVER, ERROR_PERMISSION, ERROR_FORMAT,
      ERROR_FILETYPE, ERROR_FILESIZE, ERROR_UNKNOWN])
    ∧ (∀ p ∈ objectPrototypeProps, p.1 ≠ "weird".data)
    ∧ errorMessageFor "weird".data = "未知错误".data
    ∧ getFailureText "5-9".data "weird".data = "[上传失败(未知错误)-5-9]".data := by
  refine ⟨by decide, by decide,
    (getFailureText_total "5-9".data "weird".data).2.1 (by decide) (by decide), ?_⟩
  decide

/-- C8, counterexample to the unamended claim: `toString` is not one of the
seven taxonomy kinds, yet the rendered marker is not the generic
unknown-error message — the lookup finds the truthy inherited
`Object.prototype.toString` function and renders it instead. -/
theorem getFailureText_proto_cex :
    ("toString".data ∉ [ERROR_NETWORK, ERROR_SERVER, ERROR_PERMISSION, ERROR_FORMAT,
      ERROR_FILETYPE, ERROR_FILESIZE, ERROR_UNKNOWN])
    ∧ getFailureText "7-3".data "toString".data ≠ "[上传失败(未知错误)-7-3]".data
    ∧ getFailureText "7-3".data "toString".data =
        "[上传失败(function toString() \x7b [native code] \x7d)-7-3]".data := by
  decide

/-! ### Claim C7: local validation and the untouched buffer -/

/-- C7: validation fails with kind `filetype` when the MIME type matches no
supported category, fails with kind `filesize` when the type is supported but
the size exceeds the configured 20 MiB maximum, succeeds otherwise; and a file
failing validation is dropped before any placeholder insertion, leaving the
editor state unchanged. -/
theorem validateFile_spec (file : JsFile) (editor : EditorState) (uploadId : List Char) :
    (getFileType file = none → validateFile file = ⟨false, some ERROR_FILETYPE⟩)
    ∧ (getFileType file ≠ none → MAX_FILE_SIZE < file.size →
        validateFile file = ⟨false, some ERROR_FILESIZE⟩)
    ∧ (getFileType file ≠ none → file.size ≤ MAX_FILE_SIZE →
        validateFile file = ⟨true, none⟩)
    ∧ ((validateFile file).valid = false → processFile file editor uploadId = editor) := by
  refine ⟨?_, ?_, ?_, ?_⟩
  · intro h
    simp [validateFile, h]
  · intro h hs
    rcases Option.ne_none_iff_exists.mp h with ⟨k, hk⟩
    simp [validateFile, ← hk, hs]
  · intro h hs
    rcases Option.ne_none_iff_exists.mp h with ⟨k, hk⟩
    simp [validateFile, ← hk, Nat.not_lt.mpr hs]
  · intro h
    simp [processFile, h]

/-- Witness for C7: a 25 MB image is rejected with kind `filesize` before any
placeholder insertion, and the buffer is unchanged. -/
theorem validateFile_spec_witness :
    (getFileType ⟨"big.png".data, "image/png".data, 25 * 1024 * 1024⟩ ≠ none)
    ∧ MAX_FILE_SIZE < 25 * 1024 * 1024
    ∧ validateFile ⟨"big.png".data, "image/png".data, 25 * 1024 * 1024⟩ =
        ⟨false, some ERROR_FILESIZE⟩
    ∧ processFile ⟨"big.png".data, "image/png".data, 25 * 1024 * 1024⟩
        ⟨"hello".data, 2, 2, 7⟩ "5-9".data = ⟨"hello".data, 2, 2, 7⟩ := by
  refine ⟨by decide, by decide, ?_, ?_⟩
  · exact (validateFile_spec ⟨"big.png".data, "image/png".data, 25 * 1024 * 1024⟩
      ⟨"hello".data, 2, 2, 7⟩ "5-9".data).2.1 (by decide) (by decide)
  · exact (validateFile_spec ⟨"big.png".data, "image/png".data, 25 * 1024 * 1024⟩
      ⟨"hello".data, 2, 2, 7⟩ "5-9".data).2.2.2 (by decide)

/-! ### Claims C1 and C3: splice cursor rules and the append fallback -/

/-- Inversion for a successful placeholder search: the span is the left-most
match position together with the matched length and text. -/
theorem findPlaceholder_inv (text uploadId : List Char) (ph : Span)
    (h : findPlaceholder text uploadId = some ph) :
    findFrom uploadId text 0 = some (ph.start, ph.stop - ph.start)
    ∧ ph.start ≤ ph.stop
    ∧ ph.text = (text.drop ph.start).take (ph.stop - ph.start) := by
  unfold findPlaceholder at h
  cases hf : findFrom uploadId text 0 with
  | none => rw [hf] at h; exact absurd h (by simp)
  | some p =>
    rw [hf] at h
    obtain ⟨i, len⟩ := p
    simp only [Option.some.injEq] at h
    subst h
    simp

/-- C1: when the placeholder for the upload id is matched at span
`[start, stop)` and replaced by text of length `n`, the replacement reports
success, restores the scroll offset, and adjusts the cursor by exactly three
disjoint rules: a cursor strictly before the span is unchanged, a cursor
inside `[start, stop]` moves to `start + n`, and a cursor strictly after the
span shifts by the net length delta `n - (stop - start)`. -/
theorem replacePlaceholder_cursor (editor : EditorState)
    (uploadId replacementText : List Char) (ph : Span)
    (hfind : findPlaceholder editor.value uploadId = some ph) :
    (replacePlaceholder editor uploadId replacementText).2 = true
    ∧ (replacePlaceholder editor uploadId replacementText).1.scrollTop = editor.scrollTop
    ∧ (editor.selectionStart < (ph.start : Int) →
        (replacePlaceholder editor uploadId replacementText).1.selectionStart =
            editor.selectionStart
          ∧ (replacePlaceholder editor uploadId replacementText).1.selectionEnd =
            editor.selectionEnd)
    ∧ ((ph.start : Int) ≤ editor.selectionStart → editor.selectionStart ≤ (ph.stop : Int) →
        (replacePlaceholder editor uploadId replacementText).1.selectionStart =
            (ph.start : Int) + replacementText.length
          ∧ (replacePlaceholder editor uploadId replacementText).1.selectionEnd =
            (ph.start : Int) + replacementText.length)
    ∧ ((ph.stop : Int) < editor.selectionStart →
        (replacePlaceholder editor uploadId replacementText).1.selectionStart =
            editor.selectionStart +
              ((replacementText.length : Int) - ((ph.stop : Int) - (ph.start : Int)))
          ∧ (replacePlaceholder editor uploadId replacementText).1.selectionEnd =
            editor.selectionEnd +
              ((replacementText.length : Int) - ((ph.stop : Int) - (ph.start : Int)))) := by
  obtain ⟨-, hle, -⟩ := findPlaceholder_inv editor.value uploadId ph hfind
  have hcast : ((ph.stop - ph.start : Nat) : Int) = (ph.stop : Int) - (ph.start : Int) := by
    omega
  simp only [replacePlaceholder, hfind, adjustCursorPosition]
  refine ⟨trivial, trivial, ?_, ?_, ?_⟩
  · intro h1
    rw [if_pos h1]
    exact ⟨rfl, rfl⟩
  · intro h1 h2
    rw [if_neg (by omega), if_pos ⟨h1, h2⟩]
    constructor <;> (dsimp only; omega)
  · intro h1
    rw [if_neg (by omega), if_neg (by omega), if_pos h1]
    constructor <;> (dsimp only; omega)

/-- Witness for C1: a concrete buffer with a placeholder and a cursor inside
the matched span. -/
theorem replacePlaceholder_cursor_witness :
    findPlaceholder "ab![上传中...5-9]cd".data "5-9".data = some ⟨2, 14, "![上传中...5-9]".data⟩
    ∧ ((4 : Nat) : Int) ≤ (5 : Int) ∧ (5 : Int) ≤ ((14 : Nat) : Int)
    ∧ (replacePlaceholder ⟨"ab![上传中...5-9]cd".data, 5, 5, 3⟩ "5-9".data "XY".data).1.selectionStart =
        ((2 : Nat) : Int) + ("XY".data.length : Int) := by
  have h : findPlaceholder "ab![上传中...5-9]cd".data "5-9".data =
      some ⟨2, 14, "![上传中...5-9]".data⟩ := by decide
  refine ⟨h, by decide, by decide, ?_⟩
  have := (replacePlaceholder_cursor ⟨"ab![上传中...5-9]cd".data, 5, 5, 3⟩ "5-9".data "XY".data
      ⟨2, 14, "![上传中...5-9]".data⟩ h).2.2.2.1 (by decide) (by decide)
  exact this.1

/-- C3: when the placeholder for the upload id is absent from the buffer, the
replacement never fails: it reports the fallback, appends the (wrapped)
replacement text at the buffer's end — first inserting a separating newline
when the buffer is non-empty and does not already end in one — and moves both
selection ends to the new end of the buffer. -/
theorem replacePlaceholder_fallback (editor : EditorState)
    (uploadId replacementText : List Char)
    (habsent : findPlaceholder editor.value uploadId = none) :
    (replacePlaceholder editor uploadId replacementText).2 = false
    ∧ (replacePlaceholder editor uploadId replacementText).1.value =
        editor.value ++
          (if editor.value.length > 0 ∧ editor.value.getLast? ≠ some '\n'
           then '\n' :: [] else []) ++
          '\n' :: (replacementText ++ '\n' :: '\n' :: [])
    ∧ (replacePlaceholder editor uploadId replacementText).1.selectionStart =
        (((replacePlaceholder editor uploadId replacementText).1.value.length : Nat) : Int)
    ∧ (replacePlaceholder editor uploadId replacementText).1.selectionEnd =
        (((replacePlaceholder editor uploadId replacementText).1.value.length : Nat) : Int) := by
  simp only [replacePlaceholder, habsent]
  refine ⟨trivial, ?_, rfl, rfl⟩
  simp only [appendToEditor, formatContent, CONTENT_BEFORE, CONTENT_AFTER]
  split_ifs with hsep
  · simp [List.append_assoc]
  · simp [List.append_assoc]

/-- Witness for C3 on a concrete buffer not containing the placeholder and not
ending in a newline. -/
theorem replacePlaceholder_fallback_witness :
    findPlaceholder "abc".data "5-9".data = none
    ∧ (replacePlaceholder ⟨"abc".data, 1, 1, 0⟩ "5-9".data "XY".data).1.value =
        "abc\n\nXY\n\n".data
    ∧ (replacePlaceholder ⟨"abc".data, 1, 1, 0⟩ "5-9".data "XY".data).1.selectionStart = 9 := by
  have h : findPlaceholder "abc".data "5-9".data = none := by decide
  have hspec := replacePlaceholder_fallback ⟨"abc".data, 1, 1, 0⟩ "5-9".data "XY".data h
  exact ⟨h, by decide, by decide⟩

/-! ### Claim C5: error classification cascade -/

/-- C5: the classifier inspects the lowered description by substring in the
fixed source order (network phrases, then auth phrases, then server-status
phrases, then parse/format phrases, else unknown); in particular a description
containing `403` and no network phrase is classified as `permission`, and the
rendered failure marker is `[上传失败(权限错误)-{id}]`.  The closed conjuncts
exhibit each earlier tier taking priority over a later one. -/
theorem categorizeError_spec (error uploadId : List Char)
    (hnet : containsSub (toLowerStr error) "network".data = false
      ∧ containsSub (toLowerStr error) "failed to fetch".data = false
      ∧ containsSub (toLowerStr error) "网络请求失败".data = false)
    (h403 : containsSub (toLowerStr error) "403".data = true) :
    categorizeError error = ERROR_PERMISSION
    ∧ getFailureText uploadId (categorizeError error) =
        "[上传失败(权限错误)-".data ++ uploadId ++ "]".data
    ∧ categorizeError "network: 403".data = ERROR_NETWORK
    ∧ categorizeError "permission, got 500".data = ERROR_PERMISSION
    ∧ categorizeError "503, cannot parse".data = ERROR_SERVER
    ∧ categorizeError "Parse Error".data = ERROR_FORMAT
    ∧ categorizeError "mystery".data = ERROR_UNKNOWN := by
  obtain ⟨h1, h2, h3⟩ := hnet
  have hperm : categorizeError error = ERROR_PERMISSION := by
    simp only [categorizeError]
    rw [h1, h2, h3, h403]
    simp
  refine ⟨hperm, ?_, by decide, by decide, by decide, by decide, by decide⟩
  rw [hperm]
  have hmsg : errorMessageFor ERROR_PERMISSION = "权限错误".data := by decide
  simp only [getFailureText, hmsg]
  simp

/-- Witness for C5: the transfer failure description `HTTP错误: 403` produced
by the upload transport is classified as `permission`. -/
theorem categorizeError_spec_witness :
    (containsSub (toLowerStr "HTTP错误: 403".data) "network".data = false
      ∧ containsSub (toLowerStr "HTTP错误: 403".data) "failed to fetch".data = false
      ∧ containsSub (toLowerStr "HTTP错误: 403".data) "网络请求失败".data = false)
    ∧ containsSub (toLowerStr "HTTP错误: 403".data) "403".data = true
    ∧ categorizeError "HTTP错误: 403".data = ERROR_PERMISSION
    ∧ getFailureText "5-9".data (categorizeError "HTTP错误: 403".data) =
        "[上传失败(权限错误)-5-9]".data := by
  refine ⟨⟨by decide, by decide, by decide⟩, by decide, ?_, ?_⟩
  · exact (categorizeError_spec "HTTP错误: 403".data "5-9".data
      ⟨by decide, by decide, by decide⟩ (by decide)).1
  · have := (categorizeError_spec "HTTP错误: 403".data "5-9".data
      ⟨by decide, by decide, by decide⟩ (by decide)).2.1
    rw [this]
    decide

/-! ### Claim C9: generated upload ids -/

/-- Fuel irrelevance for the decimal printer: any fuel strictly above `n`
produces the same digits. -/
theorem natReprAux_fuel_irrel :
    ∀ n f₁ f₂, n < f₁ → n < f₂ → natReprAux f₁ n = natReprAux f₂ n := by
  intro n
  induction n using Nat.strong_induction_on with
  | _ n ih =>
    intro f₁ f₂ h₁ h₂
    match f₁, f₂ with
    | g₁ + 1, g₂ + 1 =>
      by_cases hn : n < 10
      · simp [natReprAux, hn]
      · have hdiv : n / 10 < n := Nat.div_lt_self (by omega) (by omega)
        simp only [natReprAux, if_neg hn]
        rw [ih (n / 10) hdiv g₁ g₂ (by omega) (by omega)]

/-- Unfolding of the decimal printer above ten. -/
theorem natRepr_ge_ten (n : Nat) (h : 10 ≤ n) :
    natRepr n = natRepr (n / 10) ++ digitChar (n % 10) :: [] := by
  have hdiv : n / 10 < n := Nat.div_lt_self (by omega) (by omega)
  show natReprAux (n + 1) n = _
  simp only [natReprAux, if_neg (by omega : ¬n < 10)]
  rw [natReprAux_fuel_irrel (n / 10) n (n / 10 + 1) (by omega) (by omega)]
  rfl

/-- Unfolding of the decimal printer below ten. -/
theorem natRepr_lt_ten (n : Nat) (h : n < 10) : natRepr n = digitChar n :: [] := by
  show natReprAux (n + 1) n = _
  simp [natReprAux, h]

/-- Parsing is a left inverse of printing, so decimal notation is injective. -/
theorem parseDigits_natRepr : ∀ n, parseDigits (natRepr n) = n := by
  intro n
  induction n using Nat.strong_induction_on with
  | _ n ih =>
    by_cases hn : n < 10
    · rw [natRepr_lt_ten n hn]
      have : ∀ m, m < 10 → parseDigits (digitChar m :: []) = m := by decide
      exact this n hn
    · have hdiv : n / 10 < n := Nat.div_lt_self (by omega) (by omega)
      rw [natRepr_ge_ten n (by omega)]
      have hstep : ∀ cs d, parseDigits (cs ++ d :: []) =
          parseDigits cs * 10 + (d.toNat - 48) := by
        intro cs d
        simp [parseDigits, List.foldl_append]
      rw [hstep, ih (n / 10) hdiv]
      have hdig : ∀ m, m < 10 → (digitChar m).toNat - 48 = m := by decide
      rw [hdig (n % 10) (Nat.mod_lt n (by omega))]
      omega

/-- Every character of a printed natural is a decimal digit. -/
theorem natRepr_digits : ∀ n c, c ∈ natRepr n → 48 ≤ c.toNat ∧ c.toNat ≤ 57 := by
  intro n
  induction n using Nat.strong_induction_on with
  | _ n ih =>
    intro c hc
    by_cases hn : n < 10
    · rw [natRepr_lt_ten n hn] at hc
      simp only [List.mem_singleton] at hc
      subst hc
      have : ∀ m, m < 10 → 48 ≤ (digitChar m).toNat ∧ (digitChar m).toNat ≤ 57 := by decide
      exact this n hn
    · have hdiv : n / 10 < n := Nat.div_lt_self (by omega) (by omega)
      rw [natRepr_ge_ten n (by omega)] at hc
      rcases List.mem_append.mp hc with hc | hc
      · exact ih (n / 10) hdiv c hc
      · simp only [List.mem_singleton] at hc
        subst hc
        have : ∀ m, m < 10 → 48 ≤ (digitChar m).toNat ∧ (digitChar m).toNat ≤ 57 := by decide
        exact this (n % 10) (Nat.mod_lt n (by omega))

/-- A printed natural never contains the separator `-`. -/
theorem natRepr_no_dash (n : Nat) (c : Char) (hc : c ∈ natRepr n) : c ≠ '-' := by
  intro he
  subst he
  have := natRepr_digits n '-' hc
  revert this
  decide

/-- Splitting at the first `-` is unambiguous when both left parts are
dash-free. -/
theorem append_dash_inj :
    ∀ (a a' b b' : List Char), (∀ c ∈ a, c ≠ '-') → (∀ c ∈ a', c ≠ '-') →
      a ++ '-' :: b = a' ++ '-' :: b' → a = a' ∧ b = b' := by
  intro a
  induction a with
  | nil =>
    intro a' b b' _ ha' he
    cases a' with
    | nil => simpa using he
    | cons x xs =>
      simp only [List.nil_append, List.cons_append, List.cons.injEq] at he
      exact absurd he.1.symm (ha' x (List.mem_cons_self x xs))
  | cons x xs ih =>
    intro a' b b' ha ha' he
    cases a' with
    | nil =>
      simp only [List.cons_append, List.nil_append, List.cons.injEq] at he
      exact absurd he.1 (ha x (List.mem_cons_self x xs))
    | cons y ys =>
      simp only [List.cons_append, List.cons.injEq] at he
      obtain ⟨hxy, htail⟩ := he
      obtain ⟨h1, h2⟩ := ih ys b b' (fun c hc => ha c (List.mem_cons_of_mem x hc))
        (fun c hc => ha' c (List.mem_cons_of_mem y hc)) htail
      exact ⟨by rw [hxy, h1], h2⟩

/-- Two generated ids with the same text have the same counter and clock. -/
theorem generatedId_inj (t₁ c₁ t₂ c₂ : Nat)
    (h : natRepr t₁ ++ '-' :: natRepr c₁ = natRepr t₂ ++ '-' :: natRepr c₂) :
    t₁ = t₂ ∧ c₁ = c₂ := by
  obtain ⟨h1, h2⟩ := append_dash_inj (natRepr t₁) (natRepr t₂) (natRepr c₁) (natRepr c₂)
    (natRepr_no_dash t₁) (natRepr_no_dash t₂) h
  constructor
  · have := congrArg parseDigits h1
    rwa [parseDigits_natRepr, parseDigits_natRepr] at this
  · have := congrArg parseDigits h2
    rwa [parseDigits_natRepr, parseDigits_natRepr] at this

/-- The counter component read back from a generated id. -/
theorem counterPart_generatedId (t k : Nat) :
    counterPart (natRepr t ++ '-' :: natRepr k) = k := by
  unfold counterPart
  have hdrop : (natRepr t ++ '-' :: natRepr k).dropWhile (fun c => c != '-') =
      '-' :: natRepr k := by
    have : ∀ (a : List Char), (∀ c ∈ a, c ≠ '-') →
        (a ++ '-' :: natRepr k).dropWhile (fun c => c != '-') = '-' :: natRepr k := by
      intro a
      induction a with
      | nil => intro _; simp [List.dropWhile]
      | cons x xs ih =>
        intro ha
        have hx : (x != '-') = true := by
          simp [bne_iff_ne]
          exact ha x (List.mem_cons_self x xs)
        simp only [List.cons_append, List.dropWhile_cons, hx, if_true]
        exact ih (fun c hc => ha c (List.mem_cons_of_mem x hc))
    exact this (natRepr t) (natRepr_no_dash t)
  rw [hdrop]
  simp [parseDigits_natRepr]

/-- Membership in a run of generated ids always carries a strictly larger
counter than the starting value. -/
theorem mem_generateIds (ts : List Nat) :
    ∀ c id, id ∈ generateIds ts c →
      ∃ t k, c < k ∧ id = natRepr t ++ '-' :: natRepr k := by
  induction ts with
  | nil => intro c id h; simp [generateIds] at h
  | cons t ts ih =>
    intro c id h
    simp only [generateIds, generateUploadId, List.mem_cons] at h
    rcases h with h | h
    · exact ⟨t, c + 1, Nat.lt_succ_self c, h⟩
    · obtain ⟨t', k, hk, he⟩ := ih (c + 1) id h
      exact ⟨t', k, by omega, he⟩

/-- C9 (amended): the ids returned by successive `generateUploadId` calls are
pairwise distinct, and their counter components strictly increase in call
order.  (As raw strings the ids are *not* lexicographically increasing; see
the counterexample.) -/
theorem generateIds_pairwise (ts : List Nat) (c : Nat) :
    (generateIds ts c).Pairwise
      (fun a b => a ≠ b ∧ counterPart a < counterPart b) := by
  induction ts generalizing c with
  | nil => exact List.Pairwise.nil
  | cons t ts ih =>
    simp only [generateIds, generateUploadId]
    refine List.Pairwise.cons ?_ (ih (c + 1))
    intro b hb
    obtain ⟨t', k, hk, he⟩ := mem_generateIds ts (c + 1) b hb
    subst he
    constructor
    · intro he
      have := (generatedId_inj t (c + 1) t' k he).2
      omega
    · rw [counterPart_generatedId, counterPart_generatedId]
      omega

/-- Counterexample to C9 as stated: two calls in the same millisecond (clock
value 5, counter starting at 8) return `5-9` then `5-10`; the ids are distinct
but the later one is lexicographically *smaller*, so the returned ids are not
strictly increasing as strings. -/
theorem generateIds_not_increasing :
    generateIds [5, 5] 8 = ["5-9".data, "5-10".data]
    ∧ strLt "5-9".data "5-10".data = false
    ∧ "5-9".data ≠ "5-10".data := by
  refine ⟨?_, by decide, by decide⟩
  have h9 : natRepr 5 ++ '-' :: natRepr 9 = "5-9".data := by decide
  have h10 : natRepr 5 ++ '-' :: natRepr 10 = "5-10".data := by decide
  simp [generateIds, generateUploadId, h9, h10]

/-! ### The matcher: equivalence with the pattern description -/

/-- Stripping a literal off its own concatenation leaves the remainder. -/
theorem stripLit_self_append (p r : List Char) : stripLit p (p ++ r) = some r := by
  induction p with
  | nil => rfl
  | cons a p ih => simp [stripLit, ih]

/-- Inversion of literal stripping. -/
theorem stripLit_eq_some (p : List Char) :
    ∀ cs r, stripLit p cs = some r → cs = p ++ r := by
  induction p with
  | nil =>
    intro cs r h
    simp only [stripLit, Option.some.injEq] at h
    simp [h]
  | cons a p ih =>
    intro cs r h
    cases cs with
    | nil => simp [stripLit] at h
    | cons c cs' =>
      simp only [stripLit] at h
      split_ifs at h with hac
      subst hac
      rw [List.cons_append, ih cs' r h]

/-- Inversion of the greedy lowercase run: the input splits into an all
lowercase run of the reported length and the remainder. -/
theorem takeLowerRun_inv :
    ∀ cs : List Char, ∃ run, cs = run ++ (takeLowerRun cs).2
      ∧ run.length = (takeLowerRun cs).1
      ∧ ∀ c ∈ run, isLowerAZ c = true := by
  intro cs
  induction cs with
  | nil => exact ⟨[], rfl, rfl, by simp⟩
  | cons c cs ih =>
    obtain ⟨run, h1, h2, h3⟩ := ih
    by_cases hc : isLowerAZ c = true
    · refine ⟨c :: run, ?_, ?_, ?_⟩
      · simp only [takeLowerRun, hc, if_true, List.cons_append]
        exact congrArg (c :: ·) h1
      · simp only [takeLowerRun, hc, if_true, List.length_cons]
        simp [h2]
      · intro x hx
        rcases List.mem_cons.mp hx with h | h
        · subst h; exact hc
        · exact h3 x h
    · exact ⟨[], by simp [takeLowerRun, hc], by simp [takeLowerRun, hc], by simp⟩

/-- The greedy lowercase run stops exactly at a closing bracket. -/
theorem takeLowerRun_append_close (ls rest : List Char)
    (hls : ∀ c ∈ ls, isLowerAZ c = true) :
    takeLowerRun (ls ++ ']' :: rest) = (ls.length, ']' :: rest) := by
  induction ls with
  | nil =>
    have h : isLowerAZ ']' = false := by decide
    simp [takeLowerRun, h]
  | cons x ls ih =>
    have hx := hls x (List.mem_cons_self x ls)
    have ihh := ih (fun c hc => hls c (List.mem_cons_of_mem x hc))
    show takeLowerRun (x :: (ls ++ ']' :: rest)) = ((x :: ls).length, ']' :: rest)
    simp [takeLowerRun, hx, ihh]

/-- The suffix matcher accepts a direct closing bracket. -/
theorem matchSuffixClose_close (rest : List Char) :
    matchSuffixClose (']' :: rest) = some 1 := by
  simp [matchSuffixClose]

/-- The suffix matcher accepts a non-empty lowercase group before the
closing bracket. -/
theorem matchSuffixClose_group (ls rest : List Char) (h0 : ls ≠ [])
    (hls : ∀ c ∈ ls, isLowerAZ c = true) :
    matchSuffixClose ('|' :: (ls ++ ']' :: rest)) = some (ls.length + 2) := by
  have hpos : 0 < ls.length := List.length_pos.mpr h0
  simp [matchSuffixClose, takeLowerRun_append_close ls rest hls, hpos]

/-- Inversion of the suffix matcher: consumed text is a well-formed optional
suffix followed by `]`. -/
theorem matchSuffixClose_inv (cs : List Char) (k : Nat)
    (h : matchSuffixClose cs = some k) :
    ∃ sfx rest, SfxOk sfx ∧ cs = sfx ++ ']' :: rest ∧ k = sfx.length + 1 := by
  cases cs with
  | nil => simp [matchSuffixClose] at h
  | cons c cs' =>
    simp only [matchSuffixClose] at h
    by_cases hc1 : c = ']'
    · rw [if_pos hc1] at h
      subst hc1
      refine ⟨[], cs', Or.inl rfl, rfl, ?_⟩
      simpa using h.symm
    · rw [if_neg hc1] at h
      by_cases hc2 : c = '|'
      · rw [if_pos hc2] at h
        subst hc2
        obtain ⟨run, he, hlen, hrun⟩ := takeLowerRun_inv cs'
        by_cases hpos : (takeLowerRun cs').1 > 0
        · rw [if_pos hpos] at h
          cases hr2 : (takeLowerRun cs').2 with
          | nil => rw [hr2] at h; simp at h
          | cons c' rest2 =>
            rw [hr2] at h
            simp only at h
            by_cases hc' : c' = ']'
            · rw [if_pos hc'] at h
              subst hc'
              simp only [Option.some.injEq] at h
              refine ⟨'|' :: run, rest2, Or.inr ⟨run, rfl, ?_, hrun⟩, ?_, ?_⟩
              · intro hnil
                rw [hnil] at hlen
                simp at hlen
                omega
              · rw [List.cons_append, ← hr2, ← he]
              · simp only [List.length_cons]
                omega
            · rw [if_neg hc'] at h
              exact absurd h (by simp)
        · rw [if_neg hpos] at h
          exact absurd h (by simp)
      · rw [if_neg hc2] at h
        exact absurd h (by simp)

/-- Length of a form word with the optional `!`. -/
theorem formWord_length_true (w uploadId sfx : List Char) (hw3 : w.length = 3) :
    (formWord true w uploadId sfx).length = 9 + uploadId.length + sfx.length := by
  simp [formWord, headLit, hw3]
  omega

/-- Length of a form word without the optional `!`. -/
theorem formWord_length_false (w uploadId sfx : List Char) (hw3 : w.length = 3) :
    (formWord false w uploadId sfx).length = 8 + uploadId.length + sfx.length := by
  simp [formWord, headLit, hw3]
  omega

/-- The core matcher accepts any well-formed pattern body. -/
theorem matchCore_build (uploadId w sfx rest : List Char) (hw : WOk w)
    (hsfx : SfxOk sfx) :
    matchCore uploadId (headLit ++ (w ++ (uploadId ++ (sfx ++ ']' :: rest)))) =
      some (7 + uploadId.length + (sfx.length + 1)) := by
  obtain ⟨hw3, hwt⟩ := hw
  obtain ⟨w1, w2, w3, hweq⟩ : ∃ a b c, w = [a, b, c] := by
    match w, hw3 with
    | [a, b, c], _ => exact ⟨a, b, c, rfl⟩
  subst hweq
  have h1 : isLineTerminator w1 = false := hwt w1 (by simp)
  have h2 : isLineTerminator w2 = false := hwt w2 (by simp)
  have h3 : isLineTerminator w3 = false := hwt w3 (by simp)
  rcases hsfx with hsfx | ⟨ls, hsfx, hne, hls⟩
  · subst hsfx
    simp [matchCore, stripLit_self_append, h1, h2, h3, matchSuffixClose_close]
  · subst hsfx
    simp [matchCore, stripLit_self_append, h1, h2, h3,
      matchSuffixClose_group ls rest hne hls]

/-- Inversion of the core matcher: a successful match decomposes the input
into the literal head, three wildcards, the id, an optional suffix and the
closing bracket. -/
theorem matchCore_inv (uploadId cs : List Char) (len : Nat)
    (h : matchCore uploadId cs = some len) :
    ∃ w sfx rest, WOk w ∧ SfxOk sfx
      ∧ cs = headLit ++ (w ++ (uploadId ++ (sfx ++ ']' :: rest)))
      ∧ len = 7 + uploadId.length + (sfx.length + 1) := by
  unfold matchCore at h
  obtain ⟨cs1, hs1, h⟩ := Option.bind_eq_some.mp h
  have hcs : cs = headLit ++ cs1 := stripLit_eq_some headLit cs cs1 hs1
  cases cs1 with
  | nil => simp at h
  | cons w1 t1 =>
    cases t1 with
    | nil => simp at h
    | cons w2 t2 =>
      cases t2 with
      | nil => simp at h
      | cons w3 cs2 =>
        simp only at h
        by_cases hterm : (isLineTerminator w1 || isLineTerminator w2 ||
            isLineTerminator w3) = true
        · rw [if_pos hterm] at h
          simp at h
        · rw [if_neg hterm] at h
          have hterm' : (isLineTerminator w1 = false ∧ isLineTerminator w2 = false) ∧
              isLineTerminator w3 = false := by
            simpa [not_or] using hterm
          obtain ⟨cs3, hs2, h⟩ := Option.bind_eq_some.mp h
          have hcs2 : cs2 = uploadId ++ cs3 := stripLit_eq_some uploadId cs2 cs3 hs2
          obtain ⟨k, hs3, hk⟩ := Option.map_eq_some'.mp h
          obtain ⟨sfx, rest, hsfx, hcs3, hkk⟩ := matchSuffixClose_inv cs3 k hs3
          refine ⟨[w1, w2, w3], sfx, rest, ⟨rfl, ?_⟩, hsfx, ?_, ?_⟩
          · intro c hc
            rcases List.mem_cons.mp hc with hcc | hc
            · subst hcc; exact hterm'.1.1
            rcases List.mem_cons.mp hc with hcc | hc
            · subst hcc; exact hterm'.1.2
            rcases List.mem_cons.mp hc with hcc | hc
            · subst hcc; exact hterm'.2
            · simp at hc
          · rw [hcs, hcs2, hcs3]
            simp [List.append_assoc]
          · omega

/-- A head other than `!` falls through to the core matcher. -/
theorem matchAt_eq_core (uploadId : List Char) (c : Char) (cs : List Char)
    (hc : c ≠ '!') :
    matchAt uploadId (c :: cs) = matchCore uploadId (c :: cs) := by
  simp [matchAt, hc]

/-- A `!` head commits the optional group, because `\[` cannot match `!`. -/
theorem matchAt_bang (uploadId cs : List Char) :
    matchAt uploadId ('!' :: cs) = (matchCore uploadId cs).map (· + 1) := by
  simp [matchAt]

/-- The empty text matches nothing. -/
theorem matchAt_nil (uploadId : List Char) : matchAt uploadId [] = none := rfl

/-- Unfolding equation of the scan. -/
theorem findFrom_eq (uploadId cs : List Char) (i : Nat) :
    findFrom uploadId cs i =
      match matchAt uploadId cs with
      | some len => some (i, len)
      | none =>
        match cs with
        | [] => none
        | _ :: rest => findFrom uploadId rest (i + 1) := by
  cases cs <;> rfl

/-- The executable matcher succeeds exactly on the pattern occurrences
described by `SpecMatchAt`, with the occurrence's length. -/
theorem matchAt_iff (uploadId cs : List Char) (len : Nat) :
    matchAt uploadId cs = some len ↔ SpecMatchAt uploadId cs len := by
  constructor
  · intro h
    cases cs with
    | nil => simp [matchAt] at h
    | cons c rest =>
      by_cases hc : c = '!'
      · subst hc
        rw [matchAt_bang] at h
        obtain ⟨m, hm, hlen⟩ := Option.map_eq_some'.mp h
        obtain ⟨w, sfx, rest', hw, hsfx, hrest, hm'⟩ := matchCore_inv uploadId rest m hm
        refine ⟨true, w, sfx, rest', hw, hsfx, ?_, ?_⟩
        · rw [hrest]
          simp [formWord, List.append_assoc]
        · rw [formWord_length_true w uploadId sfx hw.1]
          omega
      · rw [matchAt_eq_core uploadId c rest hc] at h
        obtain ⟨w, sfx, rest', hw, hsfx, hrest, hm'⟩ :=
          matchCore_inv uploadId (c :: rest) len h
        refine ⟨false, w, sfx, rest', hw, hsfx, ?_, ?_⟩
        · rw [hrest]
          simp [formWord, List.append_assoc]
        · rw [formWord_length_false w uploadId sfx hw.1]
          omega
  · rintro ⟨bang, w, sfx, rest, hw, hsfx, hcs, hlen⟩
    cases bang
    · have hform : cs = '[' :: (('上' :: '传' :: '中' :: []) ++
          (w ++ (uploadId ++ (sfx ++ ']' :: rest)))) := by
        rw [hcs]
        simp [formWord, headLit, List.append_assoc]
      have hback : ('[' :: (('上' :: '传' :: '中' :: []) ++
          (w ++ (uploadId ++ (sfx ++ ']' :: rest))))) =
          headLit ++ (w ++ (uploadId ++ (sfx ++ ']' :: rest))) := by
        simp [headLit]
      rw [hform, matchAt_eq_core uploadId '[' _ (by decide), hback,
        matchCore_build uploadId w sfx rest hw hsfx, hlen,
        formWord_length_false w uploadId sfx hw.1]
      simp only [Option.some.injEq]
      omega
    · have hform : cs = '!' :: (headLit ++ (w ++ (uploadId ++ (sfx ++ ']' :: rest)))) := by
        rw [hcs]
        simp [formWord, headLit, List.append_assoc]
      rw [hform, matchAt_bang, matchCore_build uploadId w sfx rest hw hsfx, hlen,
        formWord_length_true w uploadId sfx hw.1]
      simp only [Option.map_some', Option.some.injEq]
      omega

/-- A failed scan means no position matches. -/
theorem findFrom_none_spec (uploadId : List Char) :
    ∀ cs i, findFrom uploadId cs i = none →
      ∀ j, matchAt uploadId (cs.drop j) = none := by
  intro cs
  induction cs with
  | nil =>
    intro i _ j
    rw [List.drop_nil]
    exact matchAt_nil uploadId
  | cons c rest ih =>
    intro i h j
    cases hm : matchAt uploadId (c :: rest) with
    | some l =>
      rw [findFrom_eq, hm] at h
      simp at h
    | none =>
      rw [findFrom_eq, hm] at h
      simp only at h
      cases j with
      | zero => simpa using hm
      | succ j' =>
        rw [List.drop_succ_cons]
        exact ih (i + 1) h j'

/-- A successful scan returns the leftmost matching position (relative to the
starting offset) together with the matched length. -/
theorem findFrom_some_spec (uploadId : List Char) :
    ∀ cs i j len, findFrom uploadId cs i = some (j, len) →
      i ≤ j ∧ matchAt uploadId (cs.drop (j - i)) = some len
        ∧ ∀ j' < j - i, matchAt uploadId (cs.drop j') = none := by
  intro cs
  induction cs with
  | nil =>
    intro i j len h
    simp [findFrom, matchAt_nil] at h
  | cons c rest ih =>
    intro i j len h
    cases hm : matchAt uploadId (c :: rest) with
    | some l =>
      rw [findFrom_eq, hm] at h
      simp only [Option.some.injEq, Prod.mk.injEq] at h
      obtain ⟨rfl, rfl⟩ := h
      refine ⟨le_refl _, ?_, ?_⟩
      · simpa using hm
      · intro j' hj'
        omega
    | none =>
      rw [findFrom_eq, hm] at h
      simp only at h
      obtain ⟨hij, hmatch, hmin⟩ := ih (i + 1) j len h
      refine ⟨by omega, ?_, ?_⟩
      · have harith : j - i = (j - (i + 1)) + 1 := by omega
        rw [harith, List.drop_succ_cons]
        exact hmatch
      · intro j' hj'
        cases j' with
        | zero => simpa using hm
        | succ j'' =>
          rw [List.drop_succ_cons]
          exact hmin j'' (by omega)

/-- Conversely, a match at a position all of whose predecessors fail is what
the scan returns. -/
theorem findFrom_build_spec (uploadId : List Char) :
    ∀ j cs i len, matchAt uploadId (cs.drop j) = some len →
      (∀ j' < j, matchAt uploadId (cs.drop j') = none) →
      findFrom uploadId cs i = some (i + j, len) := by
  intro j
  induction j with
  | zero =>
    intro cs i len h _
    rw [List.drop_zero] at h
    rw [findFrom_eq, h]
    simp
  | succ j ih =>
    intro cs i len h hmin
    have h0 : matchAt uploadId cs = none := by simpa using hmin 0 (by omega)
    cases cs with
    | nil =>
      rw [List.drop_nil, matchAt_nil] at h
      exact absurd h (by simp)
    | cons c rest =>
      have hstep : findFrom uploadId (c :: rest) i = findFrom uploadId rest (i + 1) := by
        rw [findFrom_eq, h0]
      rw [hstep]
      rw [List.drop_succ_cons] at h
      have hres := ih rest (i + 1) len h (fun j' hj' => by
        have hh := hmin (j' + 1) (by omega)
        rwa [List.drop_succ_cons] at hh)
      have harith : i + 1 + j = i + (j + 1) := by omega
      rwa [harith] at hres

/-! ### Claim C10: wildcard lookup and leftmost occurrence -/

/-- C10: the placeholder lookup does not require the literal three dots: as
soon as the text contains, at any position `i`, a fragment of the shape
optional `!` + `[上传中` + three non line terminator characters + id +
optional `|` and lowercase letters + `]`, the lookup succeeds; it returns the
leftmost position carrying such a fragment, and the returned span is exactly
that fragment. -/
theorem findPlaceholder_leftmost (text uploadId : List Char) (i len : Nat)
    (h : SpecMatchAt uploadId (text.drop i) len) :
    ∃ s : Span, findPlaceholder text uploadId = some s
      ∧ SpecMatchAt uploadId (text.drop s.start) (s.stop - s.start)
      ∧ s.start ≤ i
      ∧ (∀ j l, SpecMatchAt uploadId (text.drop j) l → s.start ≤ j)
      ∧ s.text = (text.drop s.start).take (s.stop - s.start) := by
  have hm : matchAt uploadId (text.drop i) = some len := (matchAt_iff _ _ _).mpr h
  cases hf : findFrom uploadId text 0 with
  | none =>
    have := findFrom_none_spec uploadId text 0 hf i
    rw [this] at hm
    exact absurd hm (by simp)
  | some p =>
    obtain ⟨j, l⟩ := p
    obtain ⟨-, hmatch, hmin⟩ := findFrom_some_spec uploadId text 0 j l hf
    rw [Nat.sub_zero] at hmatch hmin
    have hfp : findPlaceholder text uploadId = some ⟨j, j + l, (text.drop j).take l⟩ := by
      unfold findPlaceholder
      rw [hf]
    refine ⟨⟨j, j + l, (text.drop j).take l⟩, hfp, ?_, ?_, ?_, ?_⟩
    · have : j + l - j = l := by omega
      rw [this]
      exact (matchAt_iff _ _ _).mp hmatch
    · by_contra hlt
      push_neg at hlt
      have := hmin i hlt
      rw [this] at hm
      exact absurd hm (by simp)
    · intro j' l' hj'
      by_contra hlt
      push_neg at hlt
      have hnone := hmin j' hlt
      have hsome := (matchAt_iff uploadId (text.drop j') l').mpr hj'
      rw [hnone] at hsome
      exact absurd hsome (by simp)
    · have : j + l - j = l := by omega
      rw [this]

/-- Witness for C10: a placeholder whose dots were edited to `xyz` is still
found, at the leftmost position. -/
theorem findPlaceholder_leftmost_witness :
    SpecMatchAt "5-9".data ("ab![上传中xyz5-9]c".data.drop 2) 12
    ∧ findPlaceholder "ab![上传中xyz5-9]c".data "5-9".data =
        some ⟨2, 14, "![上传中xyz5-9]".data⟩ := by
  have hspec : SpecMatchAt "5-9".data ("ab![上传中xyz5-9]c".data.drop 2) 12 :=
    ⟨true, 'x' :: 'y' :: 'z' :: [], [], 'c' :: [],
      ⟨by decide, by decide⟩, Or.inl rfl, by decide, by decide⟩
  obtain ⟨s, hs, -, -, -, -⟩ :=
    findPlaceholder_leftmost "ab![上传中xyz5-9]c".data "5-9".data 2 12 hspec
  exact ⟨hspec, by decide⟩

/-! ### Claim C2: insert/locate round trip -/

/-- A list element sitting at an offset below `w.length` in `w ++ rest`
belongs to `w`. -/
theorem mem_of_append_lt : ∀ (a : List Char) (c : Char) (r w rest : List Char),
    a ++ c :: r = w ++ rest → a.length < w.length → c ∈ w := by
  intro a
  induction a with
  | nil =>
    intro c r w rest he hl
    cases w with
    | nil => simp at hl
    | cons x xs =>
      simp only [List.nil_append, List.cons_append, List.cons.injEq] at he
      exact List.mem_cons.mpr (Or.inl he.1)
  | cons y ys ih =>
    intro c r w rest he hl
    cases w with
    | nil => simp at hl
    | cons x xs =>
      simp only [List.cons_append, List.cons.injEq] at he
      have hlen2 : ys.length < xs.length := by
        simp only [List.length_cons] at hl
        omega
      exact List.mem_cons.mpr (Or.inr (ih c r xs rest he.2 hlen2))

/-- When `w ++ rest` and `a ++ z` coincide with `w` not longer than `a`, the
word `w` is a prefix of `a`. -/
theorem eq_append_of_le (w rest a z : List Char) (he : w ++ rest = a ++ z)
    (hl : w.length ≤ a.length) : ∃ a', a = w ++ a' := by
  refine ⟨a.drop w.length, ?_⟩
  have h2 : (w ++ rest).take w.length = w := List.take_left w rest
  rw [he, List.take_append_eq_append_take] at h2
  have h0 : w.length - a.length = 0 := by omega
  rw [h0, List.take_zero, List.append_nil] at h2
  conv_lhs => rw [← List.take_append_drop w.length a]
  rw [h2]

/-- No character of a form word for a newline-free id is a newline. -/
theorem formWord_no_newline (bang : Bool) (w uploadId sfx : List Char)
    (hw : WOk w) (hsfx : SfxOk sfx) (hid : ∀ c ∈ uploadId, c ≠ '\n') :
    '\n' ∉ formWord bang w uploadId sfx := by
  intro hmem
  unfold formWord at hmem
  rcases List.mem_append.mp hmem with h | h
  swap
  · revert h; decide
  rcases List.mem_append.mp h with h | h
  swap
  · rcases hsfx with hs | ⟨ls, hs, -, hls⟩
    · subst hs; simp at h
    · subst hs
      rcases List.mem_cons.mp h with hc | hc
      · exact absurd hc (by decide)
      · exact absurd (hls '\n' hc) (by decide)
  rcases List.mem_append.mp h with h | h
  swap
  · exact hid '\n' h rfl
  rcases List.mem_append.mp h with h | h
  swap
  · exact absurd (hw.2 '\n' h) (by decide)
  rcases List.mem_append.mp h with h | h
  · cases bang
    · simp at h
    · rw [if_pos rfl] at h
      revert h; decide
  · revert h; decide

/-- A pattern occurrence entirely before a newline survives any replacement of
the text after the newline. -/
theorem specMatchAt_newline_frame (uploadId a r Z : List Char) (len : Nat)
    (hid : ∀ c ∈ uploadId, c ≠ '\n')
    (h : SpecMatchAt uploadId (a ++ '\n' :: r) len) :
    SpecMatchAt uploadId (a ++ Z) len := by
  obtain ⟨bang, w, sfx, rest, hw, hsfx, hcs, hlen⟩ := h
  have hnl : '\n' ∉ formWord bang w uploadId sfx :=
    formWord_no_newline bang w uploadId sfx hw hsfx hid
  by_cases hle : (formWord bang w uploadId sfx).length ≤ a.length
  · obtain ⟨a', ha⟩ := eq_append_of_le (formWord bang w uploadId sfx) rest a ('\n' :: r)
      hcs.symm hle
    refine ⟨bang, w, sfx, a' ++ Z, hw, hsfx, ?_, hlen⟩
    rw [ha, List.append_assoc]
  · push_neg at hle
    exact absurd (mem_of_append_lt a '\n' r (formWord bang w uploadId sfx) rest hcs hle) hnl

/-- The generated placeholder is itself a form word whose wildcards are the
three literal dots. -/
theorem placeholderTextFor_formWord (fileType : Option FileKind) (uploadId : List Char) :
    ∃ bang sfx, SfxOk sfx ∧
      placeholderTextFor fileType uploadId =
        formWord bang ('.' :: '.' :: '.' :: []) uploadId sfx := by
  cases fileType with
  | none => exact ⟨false, [], Or.inl rfl, rfl⟩
  | some k =>
    cases k with
    | image => exact ⟨true, [], Or.inl rfl, rfl⟩
    | video =>
      exact ⟨true, '|' :: 'v' :: 'i' :: 'd' :: 'e' :: 'o' :: [],
        Or.inr ⟨'v' :: 'i' :: 'd' :: 'e' :: 'o' :: [], rfl, by decide, by decide⟩, rfl⟩
    | audio =>
      exact ⟨true, '|' :: 'a' :: 'u' :: 'd' :: 'i' :: 'o' :: [],
        Or.inr ⟨'a' :: 'u' :: 'd' :: 'i' :: 'o' :: [], rfl, by decide, by decide⟩, rfl⟩
    | pdf =>
      exact ⟨false, '|' :: 'a' :: 't' :: 't' :: 'a' :: 'c' :: 'h' :: 'm' :: 'e' :: 'n' :: 't' :: [],
        Or.inr ⟨'a' :: 't' :: 't' :: 'a' :: 'c' :: 'h' :: 'm' :: 'e' :: 'n' :: 't' :: [],
          rfl, by decide, by decide⟩, rfl⟩

/-- Characters of a generated id are never newlines. -/
theorem idOk_no_newline (uploadId : List Char) (hid : IdOk uploadId) :
    ∀ c ∈ uploadId, c ≠ '\n' := by
  intro c hc he
  rcases hid.2 c hc with h | h
  · subst he
    exact absurd h (by decide)
  · subst he
    exact absurd h (by decide)

/-- C2 (amended): inserting the generated placeholder at the saved cursor into
a buffer in which the id's pattern does not already match, and then locating
the id, succeeds and returns exactly the inserted placeholder text, at offset
`cursor + 1` (just after the inserted leading newline wrap). -/
theorem insertPlaceholder_roundtrip (fileType : Option FileKind) (uploadId : List Char)
    (editor : EditorState)
    (hid : IdOk uploadId)
    (hsel : editor.selectionStart.toNat ≤ editor.value.length)
    (habsent : findPlaceholder editor.value uploadId = none) :
    findPlaceholder
        (insertPlaceholder editor (placeholderTextFor fileType uploadId)).value uploadId =
      some ⟨editor.selectionStart.toNat + 1,
        editor.selectionStart.toNat + 1 + (placeholderTextFor fileType uploadId).length,
        placeholderTextFor fileType uploadId⟩ := by
  obtain ⟨bang, sfx, hsfx, hph⟩ := placeholderTextFor_formWord fileType uploadId
  have hid' : ∀ c ∈ uploadId, c ≠ '\n' := idOk_no_newline uploadId hid
  have hwdots : WOk ('.' :: '.' :: '.' :: []) := ⟨by decide, by decide⟩
  set p := editor.selectionStart.toNat with hp
  set v := editor.value with hv
  set ph := placeholderTextFor fileType uploadId with hphdef
  have hA : (v.take p).length = p := by
    simp [List.length_take, Nat.min_eq_left hsel]
  have hnew : (insertPlaceholder editor ph).value =
      (v.take p) ++ '\n' :: (ph ++ '\n' :: '\n' :: (v.drop p)) := by
    simp [insertPlaceholder, formatContent, CONTENT_BEFORE, CONTENT_AFTER,
      List.append_assoc]
  have hdrop1 : ((insertPlaceholder editor ph).value).drop (p + 1) =
      ph ++ '\n' :: '\n' :: (v.drop p) := by
    rw [hnew, List.drop_append_eq_append_drop]
    have h1 : (v.take p).drop (p + 1) = [] := by
      apply List.drop_eq_nil_of_le
      omega
    have h2 : p + 1 - (v.take p).length = 1 := by omega
    rw [h1, h2]
    simp
  have hcomp : ph ++ '\n' :: '\n' :: (v.drop p) =
      formWord bang ('.' :: '.' :: '.' :: []) uploadId sfx ++
        ('\n' :: '\n' :: (v.drop p)) := by
    rw [hph]
  have hlencomp : ph.length =
      (formWord bang ('.' :: '.' :: '.' :: []) uploadId sfx).length := by
    rw [hph]
  have hmatch : matchAt uploadId ((insertPlaceholder editor ph).value.drop (p + 1)) =
      some ph.length := by
    rw [hdrop1]
    apply (matchAt_iff _ _ _).mpr
    exact ⟨bang, '.' :: '.' :: '.' :: [], sfx, '\n' :: '\n' :: (v.drop p), hwdots, hsfx,
      hcomp, hlencomp⟩
  have hfnone : findFrom uploadId v 0 = none := by
    unfold findPlaceholder at habsent
    cases hf : findFrom uploadId v 0 with
    | none => rfl
    | some q =>
      obtain ⟨a, b⟩ := q
      rw [hf] at habsent
      simp at habsent
  have hnone : ∀ j, j < p + 1 →
      matchAt uploadId ((insertPlaceholder editor ph).value.drop j) = none := by
    intro j hj
    cases hmj : matchAt uploadId ((insertPlaceholder editor ph).value.drop j) with
    | none => rfl
    | some l =>
      exfalso
      have hspec := (matchAt_iff _ _ _).mp hmj
      have hdropj : (insertPlaceholder editor ph).value.drop j =
          ((v.take p).drop j) ++ '\n' :: (ph ++ '\n' :: '\n' :: (v.drop p)) := by
        rw [hnew, List.drop_append_eq_append_drop]
        have h0 : j - (v.take p).length = 0 := by omega
        rw [h0, List.drop_zero]
      rw [hdropj] at hspec
      have hold : SpecMatchAt uploadId (((v.take p).drop j) ++ v.drop p) l :=
        specMatchAt_newline_frame uploadId ((v.take p).drop j) _ (v.drop p) l hid' hspec
      have hvj : v.drop j = ((v.take p).drop j) ++ v.drop p := by
        conv_lhs => rw [show v = v.take p ++ v.drop p from (List.take_append_drop p v).symm]
        rw [List.drop_append_eq_append_drop]
        have h0 : j - (v.take p).length = 0 := by omega
        rw [h0, List.drop_zero]
      have hsome : matchAt uploadId (v.drop j) = some l := by
        rw [hvj]
        exact (matchAt_iff _ _ _).mpr hold
      have := findFrom_none_spec uploadId v 0 hfnone j
      rw [this] at hsome
      exact absurd hsome (by simp)
  have hbuild := findFrom_build_spec uploadId (p + 1)
    (insertPlaceholder editor ph).value 0 ph.length hmatch
    (fun j' hj' => hnone j' hj')
  rw [Nat.zero_add] at hbuild
  have hfp : findPlaceholder (insertPlaceholder editor ph).value uploadId =
      some ⟨p + 1, (p + 1) + ph.length,
        ((insertPlaceholder editor ph).value.drop (p + 1)).take ph.length⟩ := by
    unfold findPlaceholder
    rw [hbuild]
  rw [hfp, hdrop1, List.take_left]

/-- Witness for C2 at a concrete empty-suffix buffer with the cursor at the
end. -/
theorem insertPlaceholder_roundtrip_witness :
    IdOk "5-9".data
    ∧ ((⟨"hello".data, 5, 5, 0⟩ : EditorState).selectionStart.toNat ≤ "hello".data.length)
    ∧ findPlaceholder "hello".data "5-9".data = none
    ∧ findPlaceholder
        (insertPlaceholder ⟨"hello".data, 5, 5, 0⟩
          (placeholderTextFor (some FileKind.video) "5-9".data)).value "5-9".data =
        some ⟨6, 6 + (placeholderTextFor (some FileKind.video) "5-9".data).length,
          placeholderTextFor (some FileKind.video) "5-9".data⟩ := by
  refine ⟨⟨by decide, by decide⟩, by decide, by decide, ?_⟩
  exact insertPlaceholder_roundtrip (some FileKind.video) "5-9".data
    ⟨"hello".data, 5, 5, 0⟩ ⟨by decide, by decide⟩ (by decide) (by decide)

/-- Counterexample to C2 as stated: a buffer that already contains a decoy
matching the id's pattern.  After inserting the image placeholder for id `5-9`
at the end of buffer `[上传中xxx5-9]`, locate returns the decoy span, whose
text is not the generated placeholder. -/
theorem insertPlaceholder_roundtrip_cex :
    findPlaceholder
        (insertPlaceholder ⟨"[上传中xxx5-9]".data, 11, 11, 0⟩
          (placeholderTextFor (some FileKind.image) "5-9".data)).value "5-9".data =
      some ⟨0, 11, "[上传中xxx5-9]".data⟩
    ∧ "[上传中xxx5-9]".data ≠ placeholderTextFor (some FileKind.image) "5-9".data := by
  constructor
  · decide
  · decide

/-! ### Claim C4: positional analysis of overlapping occurrences -/

/-- Access into the left part of a concatenation. -/
theorem charAt_append_left :
    ∀ (l₁ l₂ : List Char) (i : Nat), i < l₁.length →
      charAt (l₁ ++ l₂) i = charAt l₁ i := by
  intro l₁
  induction l₁ with
  | nil => intro l₂ i h; simp at h
  | cons c t ih =>
    intro l₂ i h
    cases i with
    | zero => rfl
    | succ i =>
      simp only [List.length_cons] at h
      exact ih l₂ i (by omega)

/-- Access into the right part of a concatenation. -/
theorem charAt_append_right :
    ∀ (l₁ l₂ : List Char) (i : Nat), l₁.length ≤ i →
      charAt (l₁ ++ l₂) i = charAt l₂ (i - l₁.length) := by
  intro l₁
  induction l₁ with
  | nil => intro l₂ i _; rfl
  | cons c t ih =>
    intro l₂ i h
    cases i with
    | zero => simp at h
    | succ i =>
      simp only [List.length_cons] at h ⊢
      have := ih l₂ i (by omega)
      simpa [Nat.succ_sub_succ] using this

/-- Access after a drop. -/
theorem charAt_drop :
    ∀ (i : Nat) (l : List Char) (j : Nat), charAt (l.drop i) j = charAt l (i + j) := by
  intro i
  induction i with
  | zero => intro l j; simp
  | succ i ih =>
    intro l j
    cases l with
    | nil => simp [charAt]
    | cons c t =>
      rw [List.drop_succ_cons]
      have := ih t j
      rw [this]
      have harith : i + 1 + j = (i + j) + 1 := by omega
      rw [harith]
      rfl

/-- A found character is a member. -/
theorem charAt_mem :
    ∀ (l : List Char) (i : Nat) (c : Char), charAt l i = some c → c ∈ l := by
  intro l
  induction l with
  | nil => intro i c h; simp [charAt] at h
  | cons x t ih =>
    intro i c h
    cases i with
    | zero =>
      simp only [charAt, Option.some.injEq] at h
      exact List.mem_cons.mpr (Or.inl h.symm)
    | succ i => exact List.mem_cons.mpr (Or.inr (ih i c h))

/-- Index past the end yields nothing. -/
theorem charAt_none :
    ∀ (l : List Char) (i : Nat), l.length ≤ i → charAt l i = none := by
  intro l
  induction l with
  | nil => intro i _; rfl
  | cons x t ih =>
    intro i h
    cases i with
    | zero => simp at h
    | succ i =>
      simp only [List.length_cons] at h
      exact ih i (by omega)

/-- Id characters are distinct from all structural characters of the
pattern. -/
theorem isIdChar_ne (c : Char) (h : isIdChar c) :
    c ≠ '[' ∧ c ≠ ']' ∧ c ≠ '!' ∧ c ≠ '|' ∧ c ≠ '上' ∧ c ≠ '传' ∧ c ≠ '中' := by
  refine ⟨?_, ?_, ?_, ?_, ?_, ?_, ?_⟩ <;> (intro he; subst he; revert h; decide)

/-- Lowercase letters are distinct from the structural characters needed in
the overlap analysis. -/
theorem isLowerAZ_ne (c : Char) (h : isLowerAZ c = true) :
    c ≠ ']' ∧ c ≠ '[' ∧ c ≠ '上' ∧ c ≠ '传' ∧ c ≠ '中' := by
  refine ⟨?_, ?_, ?_, ?_, ?_⟩ <;> (intro he; subst he; revert h; decide)

/-- Characters of a well-formed suffix are `|` or lowercase. -/
theorem sfx_chars (sfx : List Char) (hsfx : SfxOk sfx) (c : Char) (hc : c ∈ sfx) :
    c = '|' ∨ isLowerAZ c = true := by
  rcases hsfx with hs | ⟨ls, hs, -, hls⟩
  · subst hs; simp at hc
  · subst hs
    rcases List.mem_cons.mp hc with h | h
    · exact Or.inl h
    · exact Or.inr (hls c h)

/-- No opening bracket inside the id/suffix/closing-bracket tail. -/
theorem tail_no_bracket (uploadId sfx : List Char)
    (hid : ∀ c ∈ uploadId, isIdChar c) (hsfx : SfxOk sfx) (k : Nat)
    (h : charAt (uploadId ++ sfx ++ ']' :: []) k = some '[') : False := by
  have hm := charAt_mem _ _ _ h
  rcases List.mem_append.mp hm with hm | hm
  · rcases List.mem_append.mp hm with hm | hm
    · exact (isIdChar_ne '[' (hid '[' hm)).1 rfl
    · rcases sfx_chars sfx hsfx '[' hm with hc | hc
      · exact absurd hc (by decide)
      · exact (isLowerAZ_ne '[' hc).2.1 rfl
  · revert hm; decide

/-- The closing bracket occurs only at the very end of the tail. -/
theorem tail_close (uploadId sfx : List Char)
    (hid : ∀ c ∈ uploadId, isIdChar c) (hsfx : SfxOk sfx) (k : Nat)
    (h : charAt (uploadId ++ sfx ++ ']' :: []) k = some ']') :
    k = uploadId.length + sfx.length := by
  by_cases hlt : k < (uploadId ++ sfx).length
  · exfalso
    rw [charAt_append_left _ _ _ hlt] at h
    have hm := charAt_mem _ _ _ h
    rcases List.mem_append.mp hm with hm | hm
    · exact (isIdChar_ne ']' (hid ']' hm)).2.1 rfl
    · rcases sfx_chars sfx hsfx ']' hm with hc | hc
      · exact absurd hc (by decide)
      · exact (isLowerAZ_ne ']' hc).1 rfl
  · push_neg at hlt
    rw [charAt_append_right _ _ _ hlt] at h
    simp only [List.length_append] at hlt ⊢
    by_cases hk : k = uploadId.length + sfx.length
    · exact hk
    · exfalso
      have : charAt (']' :: []) (k - (uploadId.length + sfx.length)) = none := by
        apply charAt_none
        simp only [List.length_cons, List.length_nil]
        omega
      rw [List.length_append] at h
      rw [this] at h
      exact absurd h (by simp)

/-- The closing bracket of the tail sits at offset `|id| + |sfx|`. -/
theorem tail_last (uploadId sfx : List Char) :
    charAt (uploadId ++ sfx ++ ']' :: []) (uploadId.length + sfx.length) = some ']' := by
  have h := charAt_append_right (uploadId ++ sfx) (']' :: [])
    (uploadId.length + sfx.length) (by simp)
  simp only [List.length_append, Nat.sub_self] at h
  exact h

/-- Positions of `[` in the pattern body (no leading `!`): the head bracket or
one of the three wildcards. -/
theorem chain_bracket (x y z : Char) (uploadId sfx : List Char)
    (hid : ∀ c ∈ uploadId, isIdChar c) (hsfx : SfxOk sfx) (j : Nat)
    (h : charAt ('[' :: '上' :: '传' :: '中' :: x :: y :: z ::
        (uploadId ++ sfx ++ ']' :: [])) j = some '[') :
    j = 0 ∨ (4 ≤ j ∧ j ≤ 6) := by
  rcases j with _ | _ | _ | _ | _ | _ | _ | j
  · exact Or.inl rfl
  · exact absurd (show (some '上' : Option Char) = some '[' from h) (by decide)
  · exact absurd (show (some '传' : Option Char) = some '[' from h) (by decide)
  · exact absurd (show (some '中' : Option Char) = some '[' from h) (by decide)
  · exact Or.inr ⟨by omega, by omega⟩
  · exact Or.inr ⟨by omega, by omega⟩
  · exact Or.inr ⟨by omega, by omega⟩
  · exact (tail_no_bracket uploadId sfx hid hsfx j h).elim

/-- Positions of `]` in the pattern body: one of the three wildcards or the
closing bracket. -/
theorem chain_close (x y z : Char) (uploadId sfx : List Char)
    (hid : ∀ c ∈ uploadId, isIdChar c) (hsfx : SfxOk sfx) (j : Nat)
    (h : charAt ('[' :: '上' :: '传' :: '中' :: x :: y :: z ::
        (uploadId ++ sfx ++ ']' :: [])) j = some ']') :
    (4 ≤ j ∧ j ≤ 6) ∨ j = uploadId.length + sfx.length + 7 := by
  rcases j with _ | _ | _ | _ | _ | _ | _ | j
  · exact absurd (show (some '[' : Option Char) = some ']' from h) (by decide)
  · exact absurd (show (some '上' : Option Char) = some ']' from h) (by decide)
  · exact absurd (show (some '传' : Option Char) = some ']' from h) (by decide)
  · exact absurd (show (some '中' : Option Char) = some ']' from h) (by decide)
  · exact Or.inl ⟨by omega, by omega⟩
  · exact Or.inl ⟨by omega, by omega⟩
  · exact Or.inl ⟨by omega, by omega⟩
  · have := tail_close uploadId sfx hid hsfx j h
    exact Or.inr (by omega)

/-- Positions of `[` in a form word: the literal bracket or a wildcard. -/
theorem word_bracket (bang : Bool) (x y z : Char) (uploadId sfx : List Char)
    (hid : ∀ c ∈ uploadId, isIdChar c) (hsfx : SfxOk sfx) (j : Nat)
    (h : charAt (formWord bang (x :: y :: z :: []) uploadId sfx) j = some '[') :
    j = (if bang then 1 else 0) ∨
      ((if bang then 1 else 0) + 4 ≤ j ∧ j ≤ (if bang then 1 else 0) + 6) := by
  cases bang
  · show j = 0 ∨ (0 + 4 ≤ j ∧ j ≤ 0 + 6)
    have h' : charAt ('[' :: '上' :: '传' :: '中' :: x :: y :: z ::
        (uploadId ++ sfx ++ ']' :: [])) j = some '[' := h
    rcases chain_bracket x y z uploadId sfx hid hsfx j h' with h0 | ⟨h4, h6⟩
    · exact Or.inl h0
    · exact Or.inr ⟨by omega, by omega⟩
  · show j = 1 ∨ (1 + 4 ≤ j ∧ j ≤ 1 + 6)
    rcases j with _ | j
    · exact absurd (show (some '!' : Option Char) = some '[' from h) (by decide)
    · have h' : charAt ('[' :: '上' :: '传' :: '中' :: x :: y :: z ::
          (uploadId ++ sfx ++ ']' :: [])) j = some '[' := h
      rcases chain_bracket x y z uploadId sfx hid hsfx j h' with h0 | ⟨h4, h6⟩
      · exact Or.inl (by omega)
      · exact Or.inr ⟨by omega, by omega⟩

/-- Positions of `]` in a form word: a wildcard or the final bracket. -/
theorem word_close (bang : Bool) (x y z : Char) (uploadId sfx : List Char)
    (hid : ∀ c ∈ uploadId, isIdChar c) (hsfx : SfxOk sfx) (j : Nat)
    (h : charAt (formWord bang (x :: y :: z :: []) uploadId sfx) j = some ']') :
    ((if bang then 1 else 0) + 4 ≤ j ∧ j ≤ (if bang then 1 else 0) + 6) ∨
      j = uploadId.length + sfx.length + 7 + (if bang then 1 else 0) := by
  cases bang
  · show (0 + 4 ≤ j ∧ j ≤ 0 + 6) ∨ j = uploadId.length + sfx.length + 7 + 0
    have h' : charAt ('[' :: '上' :: '传' :: '中' :: x :: y :: z ::
        (uploadId ++ sfx ++ ']' :: [])) j = some ']' := h
    rcases chain_close x y z uploadId sfx hid hsfx j h' with ⟨h4, h6⟩ | h0
    · exact Or.inl ⟨by omega, by omega⟩
    · exact Or.inr (by omega)
  · show (1 + 4 ≤ j ∧ j ≤ 1 + 6) ∨ j = uploadId.length + sfx.length + 7 + 1
    rcases j with _ | j
    · exact absurd (show (some '!' : Option Char) = some ']' from h) (by decide)
    · have h' : charAt ('[' :: '上' :: '传' :: '中' :: x :: y :: z ::
          (uploadId ++ sfx ++ ']' :: [])) j = some ']' := h
      rcases chain_close x y z uploadId sfx hid hsfx j h' with ⟨h4, h6⟩ | h0
      · exact Or.inl ⟨by omega, by omega⟩
      · exact Or.inr (by omega)

/-- The literal bracket of a form word. -/
theorem word_at_bracket (bang : Bool) (x y z : Char) (uploadId sfx : List Char) :
    charAt (formWord bang (x :: y :: z :: []) uploadId sfx)
      (if bang then 1 else 0) = some '[' := by
  cases bang <;> rfl

/-- The first literal han character of a form word. -/
theorem word_at_hanzi1 (bang : Bool) (x y z : Char) (uploadId sfx : List Char) :
    charAt (formWord bang (x :: y :: z :: []) uploadId sfx)
      ((if bang then 1 else 0) + 1) = some '上' := by
  cases bang <;> rfl

/-- The second literal han character of a form word. -/
theorem word_at_hanzi2 (bang : Bool) (x y z : Char) (uploadId sfx : List Char) :
    charAt (formWord bang (x :: y :: z :: []) uploadId sfx)
      ((if bang then 1 else 0) + 2) = some '传' := by
  cases bang <;> rfl

/-- The third literal han character of a form word. -/
theorem word_at_hanzi3 (bang : Bool) (x y z : Char) (uploadId sfx : List Char) :
    charAt (formWord bang (x :: y :: z :: []) uploadId sfx)
      ((if bang then 1 else 0) + 3) = some '中' := by
  cases bang <;> rfl

/-- The first wildcard character of a form word. -/
theorem word_at_w1 (bang : Bool) (x y z : Char) (uploadId sfx : List Char) :
    charAt (formWord bang (x :: y :: z :: []) uploadId sfx)
      ((if bang then 1 else 0) + 4) = some x := by
  cases bang <;> rfl

/-- The second wildcard character of a form word. -/
theorem word_at_w2 (bang : Bool) (x y z : Char) (uploadId sfx : List Char) :
    charAt (formWord bang (x :: y :: z :: []) uploadId sfx)
      ((if bang then 1 else 0) + 5) = some y := by
  cases bang <;> rfl

/-- The third wildcard character of a form word. -/
theorem word_at_w3 (bang : Bool) (x y z : Char) (uploadId sfx : List Char) :
    charAt (formWord bang (x :: y :: z :: []) uploadId sfx)
      ((if bang then 1 else 0) + 6) = some z := by
  cases bang <;> rfl

/-- The first id character of a form word. -/
theorem word_at_idhead (bang : Bool) (x y z c0 : Char) (t sfx : List Char) :
    charAt (formWord bang (x :: y :: z :: []) (c0 :: t) sfx)
      ((if bang then 1 else 0) + 7) = some c0 := by
  cases bang <;> rfl

/-- The closing bracket of a form word sits at its last offset. -/
theorem word_at_last (bang : Bool) (x y z : Char) (uploadId sfx : List Char) :
    charAt (formWord bang (x :: y :: z :: []) uploadId sfx)
      (uploadId.length + sfx.length + 7 + (if bang then 1 else 0)) = some ']' := by
  cases bang <;> exact tail_last uploadId sfx

/-- The optional `!` of a form word. -/
theorem word_at_zero_bang (x y z : Char) (uploadId sfx : List Char) :
    charAt (formWord true (x :: y :: z :: []) uploadId sfx) 0 = some '!' := rfl

/-- In a generated placeholder (whose wildcards are literal dots) the opening
bracket position is unique. -/
theorem dots_bracket_unique (bang : Bool) (uploadId sfx : List Char)
    (hid : ∀ c ∈ uploadId, isIdChar c) (hsfx : SfxOk sfx) (j : Nat)
    (h : charAt (formWord bang ('.' :: '.' :: '.' :: []) uploadId sfx) j = some '[') :
    j = (if bang then 1 else 0) := by
  rcases word_bracket bang '.' '.' '.' uploadId sfx hid hsfx j h with h0 | ⟨h4, h6⟩
  · exact h0
  · exfalso
    rcases (by omega : j = (if bang then 1 else 0) + 4 ∨ j = (if bang then 1 else 0) + 5 ∨
        j = (if bang then 1 else 0) + 6) with rfl | rfl | rfl
    · rw [word_at_w1] at h
      exact absurd h (by decide)
    · rw [word_at_w2] at h
      exact absurd h (by decide)
    · rw [word_at_w3] at h
      exact absurd h (by decide)

/-- In a generated placeholder the closing bracket position is unique. -/
theorem dots_close_unique (bang : Bool) (uploadId sfx : List Char)
    (hid : ∀ c ∈ uploadId, isIdChar c) (hsfx : SfxOk sfx) (j : Nat)
    (h : charAt (formWord bang ('.' :: '.' :: '.' :: []) uploadId sfx) j = some ']') :
    j = uploadId.length + sfx.length + 7 + (if bang then 1 else 0) := by
  rcases word_close bang '.' '.' '.' uploadId sfx hid hsfx j h with ⟨h4, h6⟩ | h0
  · exfalso
    rcases (by omega : j = (if bang then 1 else 0) + 4 ∨ j = (if bang then 1 else 0) + 5 ∨
        j = (if bang then 1 else 0) + 6) with rfl | rfl | rfl
    · rw [word_at_w1] at h
      exact absurd h (by decide)
    · rw [word_at_w2] at h
      exact absurd h (by decide)
    · rw [word_at_w3] at h
      exact absurd h (by decide)
  · exact h0

/-- Bridge a character position through a drop decomposition. -/
theorem charAt_of_drop_eq (text W R : List Char) (s k : Nat)
    (h : text.drop s = W ++ R) (hk : k < W.length) :
    charAt text (s + k) = charAt W k := by
  rw [← charAt_drop s text k, h, charAt_append_left W R k hk]

/-- Dropping past the matched prefix of a drop decomposition. -/
theorem drop_of_drop_eq (text W R : List Char) (s m : Nat)
    (h : text.drop s = W ++ R) (hm : m ≤ W.length) :
    text.drop (s + m) = W.drop m ++ R := by
  have h1 : text.drop (s + m) = (text.drop s).drop m := (List.drop_drop m s text).symm
  rw [h1, h, List.drop_append_eq_append_drop]
  have h0 : m - W.length = 0 := by omega
  rw [h0, List.drop_zero]

/-- Bridge a character position into the middle part of an occurrence. -/
theorem charAt_of_occ (A W B : List Char) (k : Nat) (hk : k < W.length) :
    charAt (A ++ W ++ B) (A.length + k) = charAt W k := by
  have h1 : A.length + k < (A ++ W).length := by
    simp only [List.length_append]
    omega
  rw [charAt_append_left (A ++ W) B (A.length + k) h1,
    charAt_append_right A W (A.length + k) (by omega)]
  simp

/-- Dropping into the middle part of an occurrence. -/
theorem drop_of_occ (A W B : List Char) (m : Nat) (hm : m ≤ W.length) :
    (A ++ W ++ B).drop (A.length + m) = W.drop m ++ B := by
  rw [List.drop_append_eq_append_drop]
  have h1 : (A ++ W).drop (A.length + m) = W.drop m := by
    rw [List.drop_append_eq_append_drop]
    have h2 : A.drop (A.length + m) = [] := List.drop_eq_nil_of_le (by omega)
    have h3 : A.length + m - A.length = m := by omega
    rw [h2, h3, List.nil_append]
  have h4 : A.length + m - (A ++ W).length = 0 := by
    simp only [List.length_append]
    omega
  rw [h1, h4, List.drop_zero]

/-- Two id/suffix/bracket streams starting at the same position carry the same
id: a digit-dash id can neither end inside another one nor continue past the
other's suffix. -/
theorem ids_clash :
    ∀ (id1 id2 sfx1 sfx2 X Y : List Char),
      (∀ c ∈ id1, isIdChar c) → (∀ c ∈ id2, isIdChar c) →
      SfxOk sfx1 → SfxOk sfx2 →
      id1 ++ (sfx1 ++ ']' :: X) = id2 ++ (sfx2 ++ ']' :: Y) →
      id1 = id2 := by
  intro id1
  induction id1 with
  | nil =>
    intro id2 sfx1 sfx2 X Y h1 h2 hs1 hs2 he
    cases id2 with
    | nil => rfl
    | cons c2 t2 =>
      exfalso
      have hc2 := h2 c2 (List.mem_cons_self c2 t2)
      rcases hs1 with h | ⟨ls, hse, -, -⟩
      · subst h
        simp only [List.nil_append, List.cons_append, List.cons.injEq] at he
        exact (isIdChar_ne c2 hc2).2.1 he.1.symm
      · subst hse
        simp only [List.nil_append, List.cons_append, List.cons.injEq] at he
        exact (isIdChar_ne c2 hc2).2.2.2.1 he.1.symm
  | cons c1 t1 ih =>
    intro id2 sfx1 sfx2 X Y h1 h2 hs1 hs2 he
    cases id2 with
    | nil =>
      exfalso
      have hc1 := h1 c1 (List.mem_cons_self c1 t1)
      rcases hs2 with h | ⟨ls, hse, -, -⟩
      · subst h
        simp only [List.nil_append, List.cons_append, List.cons.injEq] at he
        exact (isIdChar_ne c1 hc1).2.1 he.1
      · subst hse
        simp only [List.nil_append, List.cons_append, List.cons.injEq] at he
        exact (isIdChar_ne c1 hc1).2.2.2.1 he.1
    | cons c2 t2 =>
      simp only [List.cons_append, List.cons.injEq] at he
      have ht := ih t2 sfx1 sfx2 X Y
        (fun c hc => h1 c (List.mem_cons_of_mem c1 hc))
        (fun c hc => h2 c (List.mem_cons_of_mem c2 hc)) hs1 hs2 he.2
      rw [he.1, ht]

/-- Core of C4: a pattern match for one id is disjoint from every occurrence
of another id's generated placeholder. -/
theorem match_disjoint (text uploadId1 uploadId2 : List Char)
    (fileType2 : Option FileKind) (A B : List Char) (s len1 : Nat)
    (h1 : IdOk uploadId1) (h2 : IdOk uploadId2) (hne : uploadId1 ≠ uploadId2)
    (hocc : text = A ++ placeholderTextFor fileType2 uploadId2 ++ B)
    (hmatch : matchAt uploadId1 (text.drop s) = some len1) :
    s + len1 ≤ A.length ∨
      A.length + (placeholderTextFor fileType2 uploadId2).length ≤ s := by
  obtain ⟨bang2, sfx2, hsfx2, hph2⟩ := placeholderTextFor_formWord fileType2 uploadId2
  obtain ⟨bang1, w1, sfx1, R1, hw1, hsfx1, hdropS, hlen1⟩ := (matchAt_iff _ _ _).mp hmatch
  obtain ⟨x, y, z, hw1eq⟩ : ∃ x y z, w1 = x :: y :: z :: [] := by
    match w1, hw1.1 with
    | [a, b, c], _ => exact ⟨a, b, c, rfl⟩
  subst hw1eq
  have hid1c : ∀ c ∈ uploadId1, isIdChar c := h1.2
  have hid2c : ∀ c ∈ uploadId2, isIdChar c := h2.2
  have hid1len : 0 < uploadId1.length := List.length_pos.mpr h1.1
  have hid2len : 0 < uploadId2.length := List.length_pos.mpr h2.1
  obtain ⟨n1, hn1⟩ : ∃ n, (if bang1 then (1 : Nat) else 0) = n := ⟨_, rfl⟩
  obtain ⟨n2, hn2⟩ : ∃ n, (if bang2 then (1 : Nat) else 0) = n := ⟨_, rfl⟩
  have hn1le : n1 ≤ 1 := by rw [← hn1]; cases bang1 <;> simp
  have hn2le : n2 ≤ 1 := by rw [← hn2]; cases bang2 <;> simp
  have hlenW1 : len1 = uploadId1.length + sfx1.length + 8 + n1 := by
    rw [hlen1, ← hn1]
    cases bang1
    · rw [formWord_length_false (x :: y :: z :: []) uploadId1 sfx1 rfl]
      show 8 + uploadId1.length + sfx1.length = uploadId1.length + sfx1.length + 8 + 0
      omega
    · rw [formWord_length_true (x :: y :: z :: []) uploadId1 sfx1 rfl]
      show 9 + uploadId1.length + sfx1.length = uploadId1.length + sfx1.length + 8 + 1
      omega
  have hlenW2 : (placeholderTextFor fileType2 uploadId2).length =
      uploadId2.length + sfx2.length + 8 + n2 := by
    rw [hph2, ← hn2]
    cases bang2
    · rw [formWord_length_false ('.' :: '.' :: '.' :: []) uploadId2 sfx2 rfl]
      show 8 + uploadId2.length + sfx2.length = uploadId2.length + sfx2.length + 8 + 0
      omega
    · rw [formWord_length_true ('.' :: '.' :: '.' :: []) uploadId2 sfx2 rfl]
      show 9 + uploadId2.length + sfx2.length = uploadId2.length + sfx2.length + 8 + 1
      omega
  have hF1 : ∀ k, k < len1 → charAt text (s + k) =
      charAt (formWord bang1 (x :: y :: z :: []) uploadId1 sfx1) k := by
    intro k hk
    refine charAt_of_drop_eq text _ R1 s k hdropS ?_
    rw [← hlen1]
    exact hk
  have hoccW : text = A ++ formWord bang2 ('.' :: '.' :: '.' :: []) uploadId2 sfx2 ++ B := by
    rw [hocc, hph2]
  have hlenW2' : (formWord bang2 ('.' :: '.' :: '.' :: []) uploadId2 sfx2).length =
      uploadId2.length + sfx2.length + 8 + n2 := by
    rw [← hph2]
    exact hlenW2
  have hF2 : ∀ k, k < uploadId2.length + sfx2.length + 8 + n2 →
      charAt text (A.length + k) =
        charAt (formWord bang2 ('.' :: '.' :: '.' :: []) uploadId2 sfx2) k := by
    intro k hk
    rw [hoccW]
    refine charAt_of_occ A _ B k ?_
    rw [hlenW2']
    exact hk
  have hW2bracket : charAt (formWord bang2 ('.' :: '.' :: '.' :: []) uploadId2 sfx2) n2 =
      some '[' := by
    have h := word_at_bracket bang2 '.' '.' '.' uploadId2 sfx2
    rwa [hn2] at h
  have hW2hanzi1 : charAt (formWord bang2 ('.' :: '.' :: '.' :: []) uploadId2 sfx2) (n2 + 1) =
      some '上' := by
    have h := word_at_hanzi1 bang2 '.' '.' '.' uploadId2 sfx2
    rwa [hn2] at h
  have hW2hanzi2 : charAt (formWord bang2 ('.' :: '.' :: '.' :: []) uploadId2 sfx2) (n2 + 2) =
      some '传' := by
    have h := word_at_hanzi2 bang2 '.' '.' '.' uploadId2 sfx2
    rwa [hn2] at h
  have hW2hanzi3 : charAt (formWord bang2 ('.' :: '.' :: '.' :: []) uploadId2 sfx2) (n2 + 3) =
      some '中' := by
    have h := word_at_hanzi3 bang2 '.' '.' '.' uploadId2 sfx2
    rwa [hn2] at h
  have hW2last : charAt (formWord bang2 ('.' :: '.' :: '.' :: []) uploadId2 sfx2)
      (uploadId2.length + sfx2.length + 7 + n2) = some ']' := by
    have h := word_at_last bang2 '.' '.' '.' uploadId2 sfx2
    rwa [hn2] at h
  have hW1bracket' : charAt (formWord bang1 (x :: y :: z :: []) uploadId1 sfx1) n1 =
      some '[' := by
    have h := word_at_bracket bang1 x y z uploadId1 sfx1
    rwa [hn1] at h
  have hW1last' : charAt (formWord bang1 (x :: y :: z :: []) uploadId1 sfx1)
      (uploadId1.length + sfx1.length + 7 + n1) = some ']' := by
    have h := word_at_last bang1 x y z uploadId1 sfx1
    rwa [hn1] at h
  by_contra hcon
  push_neg at hcon
  obtain ⟨hov1, hov2⟩ := hcon
  rw [hlenW2] at hov2
  by_cases hcase1 : A.length + (uploadId2.length + sfx2.length + 8 + n2) ≤ s + n1
  · have hn1eq : n1 = 1 := by omega
    have ht1 : charAt text s = some '!' := by
      have hb : bang1 = true := by
        cases bang1
        · exfalso
          simp at hn1
          omega
        · rfl
      have h0 := hF1 0 (by omega)
      rw [Nat.add_zero] at h0
      rw [h0]
      subst hb
      exact word_at_zero_bang x y z uploadId1 sfx1
    have ht2 : charAt text s = some ']' := by
      have heq : A.length + (uploadId2.length + sfx2.length + 7 + n2) = s := by omega
      have hk := hF2 (uploadId2.length + sfx2.length + 7 + n2) (by omega)
      rw [heq] at hk
      rw [hk]
      exact hW2last
    rw [ht1] at ht2
    exact absurd ht2 (by decide)
  · push_neg at hcase1
    by_cases hcase2 : A.length ≤ s + n1
    · obtain ⟨k0, hk0eq⟩ : ∃ k0, s + n1 = A.length + k0 := ⟨s + n1 - A.length, by omega⟩
      have hk0lt : k0 < uploadId2.length + sfx2.length + 8 + n2 := by omega
      have htb : charAt text (s + n1) = some '[' := by
        rw [hF1 n1 (by omega)]
        exact hW1bracket'
      have hW2k0 : charAt (formWord bang2 ('.' :: '.' :: '.' :: []) uploadId2 sfx2) k0 =
          some '[' := by
        have hbr := hF2 k0 hk0lt
        rw [← hk0eq] at hbr
        rw [← hbr]
        exact htb
      have hk0n2 : k0 = n2 := by
        have hu := dots_bracket_unique bang2 uploadId2 sfx2 hid2c hsfx2 k0 hW2k0
        rwa [hn2] at hu
      have hle1 : n1 + 7 ≤ (formWord bang1 (x :: y :: z :: []) uploadId1 sfx1).length := by
        rw [← hlen1]
        omega
      have hdropW1 : (formWord bang1 (x :: y :: z :: []) uploadId1 sfx1).drop (n1 + 7) =
          uploadId1 ++ sfx1 ++ ']' :: [] := by
        rw [← hn1]
        cases bang1 <;> rfl
      have hs1 : text.drop (s + (n1 + 7)) = (uploadId1 ++ sfx1 ++ ']' :: []) ++ R1 := by
        rw [drop_of_drop_eq text _ R1 s (n1 + 7) hdropS hle1, hdropW1]
      have hle2 : n2 + 7 ≤ (formWord bang2 ('.' :: '.' :: '.' :: []) uploadId2 sfx2).length := by
        rw [hlenW2']
        omega
      have hdropW2 : (formWord bang2 ('.' :: '.' :: '.' :: []) uploadId2 sfx2).drop (n2 + 7) =
          uploadId2 ++ sfx2 ++ ']' :: [] := by
        rw [← hn2]
        cases bang2 <;> rfl
      have hs2 : text.drop (A.length + (n2 + 7)) = (uploadId2 ++ sfx2 ++ ']' :: []) ++ B := by
        rw [hoccW, drop_of_occ A _ B (n2 + 7) hle2, hdropW2]
      have hpos : s + (n1 + 7) = A.length + (n2 + 7) := by omega
      rw [hpos, hs2] at hs1
      have hE : uploadId1 ++ (sfx1 ++ ']' :: R1) = uploadId2 ++ (sfx2 ++ ']' :: B) := by
        have hsymm := hs1.symm
        simpa [List.append_assoc] using hsymm
      exact hne (ids_clash uploadId1 uploadId2 sfx1 sfx2 R1 B hid1c hid2c hsfx1 hsfx2 hE)
    · push_neg at hcase2
      rcases Nat.lt_trichotomy (s + len1)
          (A.length + (uploadId2.length + sfx2.length + 8 + n2)) with hc | hc | hc
      · obtain ⟨k, hkeq⟩ :
            ∃ k, s + (uploadId1.length + sfx1.length + 7 + n1) = A.length + k :=
          ⟨s + (uploadId1.length + sfx1.length + 7 + n1) - A.length, by omega⟩
        have hklt : k < uploadId2.length + sfx2.length + 8 + n2 := by omega
        have ht : charAt text (s + (uploadId1.length + sfx1.length + 7 + n1)) =
            some ']' := by
          rw [hF1 (uploadId1.length + sfx1.length + 7 + n1) (by omega)]
          exact hW1last'
        have hW2k : charAt (formWord bang2 ('.' :: '.' :: '.' :: []) uploadId2 sfx2) k =
            some ']' := by
          have hcl := hF2 k hklt
          rw [← hkeq] at hcl
          rw [← hcl]
          exact ht
        have hu := dots_close_unique bang2 uploadId2 sfx2 hid2c hsfx2 k hW2k
        rw [hn2] at hu
        omega
      · obtain ⟨j2, hj2eq⟩ : ∃ j2, A.length + n2 = s + j2 := ⟨A.length + n2 - s, by omega⟩
        have hj2lt : j2 < len1 := by omega
        have htb : charAt text (A.length + n2) = some '[' := by
          have hbr := hF2 n2 (by omega)
          rw [hbr]
          exact hW2bracket
        have hW1j2 : charAt (formWord bang1 (x :: y :: z :: []) uploadId1 sfx1) j2 =
            some '[' := by
          have hbr := hF1 j2 hj2lt
          rw [← hj2eq] at hbr
          rw [← hbr]
          exact htb
        have hzone := word_bracket bang1 x y z uploadId1 sfx1 hid1c hsfx1 j2 hW1j2
        rw [hn1] at hzone
        have hj2gt : n1 < j2 := by omega
        have hzone' : n1 + 4 ≤ j2 ∧ j2 ≤ n1 + 6 := by
          rcases hzone with h | h
          · omega
          · exact h
        obtain ⟨c0, t0, hid1head⟩ : ∃ c0 t0, uploadId1 = c0 :: t0 := by
          cases hx : uploadId1 with
          | nil => exact absurd hx h1.1
          | cons a b => exact ⟨a, b, rfl⟩
        have hA1 : charAt text (s + (n1 + 7)) = some c0 := by
          rw [hF1 (n1 + 7) (by omega)]
          have hh := word_at_idhead bang1 x y z c0 t0 sfx1
          rw [hn1] at hh
          rw [hid1head]
          exact hh
        obtain ⟨d, hdeq, hd1, hd3⟩ : ∃ d, n1 + 7 = j2 + d ∧ 1 ≤ d ∧ d ≤ 3 :=
          ⟨n1 + 7 - j2, by omega, by omega, by omega⟩
        have hposA : s + (n1 + 7) = A.length + (n2 + d) := by omega
        have hA2 : charAt text (A.length + (n2 + d)) =
            charAt (formWord bang2 ('.' :: '.' :: '.' :: []) uploadId2 sfx2) (n2 + d) :=
          hF2 (n2 + d) (by omega)
        rw [hposA, hA2] at hA1
        have hc0id : isIdChar c0 := hid1c c0 (by rw [hid1head]; exact List.mem_cons_self c0 t0)
        rcases (by omega : d = 1 ∨ d = 2 ∨ d = 3) with rfl | rfl | rfl
        · rw [hW2hanzi1] at hA1
          have hcc : c0 = '上' := by
            injection hA1 with hA1'
            exact hA1'.symm
          exact (isIdChar_ne c0 hc0id).2.2.2.2.1 hcc
        · rw [hW2hanzi2] at hA1
          have hcc : c0 = '传' := by
            injection hA1 with hA1'
            exact hA1'.symm
          exact (isIdChar_ne c0 hc0id).2.2.2.2.2.1 hcc
        · rw [hW2hanzi3] at hA1
          have hcc : c0 = '中' := by
            injection hA1 with hA1'
            exact hA1'.symm
          exact (isIdChar_ne c0 hc0id).2.2.2.2.2.2 hcc
      · obtain ⟨j3, hj3eq⟩ :
            ∃ j3, A.length + (uploadId2.length + sfx2.length + 7 + n2) = s + j3 :=
          ⟨A.length + (uploadId2.length + sfx2.length + 7 + n2) - s, by omega⟩
        have hj3lt : j3 < len1 := by omega
        have ht : charAt text (A.length + (uploadId2.length + sfx2.length + 7 + n2)) =
            some ']' := by
          have hcl := hF2 (uploadId2.length + sfx2.length + 7 + n2) (by omega)
          rw [hcl]
          exact hW2last
        have hW1j3 : charAt (formWord bang1 (x :: y :: z :: []) uploadId1 sfx1) j3 =
            some ']' := by
          have hcl := hF1 j3 hj3lt
          rw [← hj3eq] at hcl
          rw [← hcl]
          exact ht
        have hzone := word_close bang1 x y z uploadId1 sfx1 hid1c hsfx1 j3 hW1j3
        rw [hn1] at hzone
        rcases hzone with ⟨h4, h6⟩ | h0
        · omega
        · omega

/-- C4: in a buffer containing the generated placeholders of two distinct
upload ids, replacing by the first id rewrites only that id's matched span:
the characters before the span's start and after its end are carried over
unchanged, the span is disjoint from the other id's placeholder occurrence,
and that other placeholder hence survives the replacement verbatim. -/
theorem replacePlaceholder_frame (editor : EditorState)
    (uploadId1 uploadId2 : List Char) (fileType2 : Option FileKind)
    (markdownLink : List Char) (A B : List Char) (s1 : Span)
    (h1 : IdOk uploadId1) (h2 : IdOk uploadId2) (hne : uploadId1 ≠ uploadId2)
    (hocc : editor.value = A ++ placeholderTextFor fileType2 uploadId2 ++ B)
    (hfind : findPlaceholder editor.value uploadId1 = some s1) :
    (replacePlaceholder editor uploadId1 markdownLink).1.value =
        editor.value.take s1.start ++ markdownLink ++ editor.value.drop s1.stop
    ∧ (s1.stop ≤ A.length ∨
        A.length + (placeholderTextFor fileType2 uploadId2).length ≤ s1.start)
    ∧ ∃ A' B', (replacePlaceholder editor uploadId1 markdownLink).1.value =
        A' ++ placeholderTextFor fileType2 uploadId2 ++ B' := by
  obtain ⟨hff, hle, -⟩ := findPlaceholder_inv editor.value uploadId1 s1 hfind
  obtain ⟨-, hmatch, -⟩ :=
    findFrom_some_spec uploadId1 editor.value 0 s1.start (s1.stop - s1.start) hff
  rw [Nat.sub_zero] at hmatch
  have hdisj := match_disjoint editor.value uploadId1 uploadId2 fileType2 A B
    s1.start (s1.stop - s1.start) h1 h2 hne hocc hmatch
  have hdisj' : s1.stop ≤ A.length ∨
      A.length + (placeholderTextFor fileType2 uploadId2).length ≤ s1.start := by
    omega
  have hval : (replacePlaceholder editor uploadId1 markdownLink).1.value =
      editor.value.take s1.start ++ markdownLink ++ editor.value.drop s1.stop := by
    simp only [replacePlaceholder, hfind]
  refine ⟨hval, hdisj', ?_⟩
  rcases hdisj' with hcase | hcase
  · have hdropt : editor.value.drop s1.stop =
        (A.drop s1.stop ++ placeholderTextFor fileType2 uploadId2) ++ B := by
      rw [hocc, List.drop_append_eq_append_drop, List.drop_append_eq_append_drop]
      have e1 : s1.stop - A.length = 0 := by omega
      have e2 : s1.stop - (A ++ placeholderTextFor fileType2 uploadId2).length = 0 := by
        simp only [List.length_append]
        omega
      rw [e1, e2, List.drop_zero, List.drop_zero]
    refine ⟨editor.value.take s1.start ++ markdownLink ++ A.drop s1.stop, B, ?_⟩
    rw [hval, hdropt]
    simp [List.append_assoc]
  · have htak : editor.value.take s1.start =
        (A ++ placeholderTextFor fileType2 uploadId2) ++
          B.take (s1.start - (A ++ placeholderTextFor fileType2 uploadId2).length) := by
      rw [hocc, List.take_append_eq_append_take]
      congr 1
      apply List.take_of_length_le
      simp only [List.length_append]
      omega
    refine ⟨A, B.take (s1.start - (A ++ placeholderTextFor fileType2 uploadId2).length) ++
      markdownLink ++ editor.value.drop s1.stop, ?_⟩
    rw [hval, htak]
    simp [List.append_assoc]

/-- Witness for C4: a buffer with the image placeholder for id `5-9` and the
video placeholder for id `5-10`; replacing id `5-9` leaves the other
placeholder untouched. -/
theorem replacePlaceholder_frame_witness :
    (IdOk "5-9".data ∧ IdOk "5-10".data ∧ "5-9".data ≠ "5-10".data)
    ∧ ("ab![上传中...5-9]cd![上传中...5-10|video]e".data =
        "ab![上传中...5-9]cd".data ++ placeholderTextFor (some FileKind.video) "5-10".data
          ++ "e".data)
    ∧ findPlaceholder "ab![上传中...5-9]cd![上传中...5-10|video]e".data "5-9".data =
        some ⟨2, 14, "![上传中...5-9]".data⟩
    ∧ (replacePlaceholder ⟨"ab![上传中...5-9]cd![上传中...5-10|video]e".data, 0, 0, 0⟩
        "5-9".data "X".data).1.value =
        "ab![上传中...5-9]cd![上传中...5-10|video]e".data.take 2 ++ "X".data ++
          "ab![上传中...5-9]cd![上传中...5-10|video]e".data.drop 14
    ∧ ((14 : Nat) ≤ "ab![上传中...5-9]cd".data.length ∨
        "ab![上传中...5-9]cd".data.length +
          (placeholderTextFor (some FileKind.video) "5-10".data).length ≤ 2) := by
  have hspec := replacePlaceholder_frame
    ⟨"ab![上传中...5-9]cd![上传中...5-10|video]e".data, 0, 0, 0⟩
    "5-9".data "5-10".data (some FileKind.video) "X".data
    "ab![上传中...5-9]cd".data "e".data ⟨2, 14, "![上传中...5-9]".data⟩
    ⟨by decide, by decide⟩ ⟨by decide, by decide⟩ (by decide) (by decide) (by decide)
  exact ⟨⟨⟨by decide, by decide⟩, ⟨by decide, by decide⟩, by decide⟩, by decide,
    by decide, hspec.1, hspec.2.1⟩

end UploadEnhancer
